import Mathlib

/-!
Shallow embedding of the core of biscuit-rust (crypto key abstraction,
public-key interning table, third-party block protocol, authorizer
snapshot/restore) and proofs of the specification claims about it.

Machine integers are modelled as Nat/Int with explicit bounds where they
matter (u32 truncation written with % 2^32, usize::MAX written as 2^64-1).
Fallible Rust functions returning Result are modelled with Except.
-/

namespace Biscuit

/-- usize::MAX on a 64-bit platform; used by the Origin model as the
"authorizer" sentinel. -/
def usizeMax : Nat := 2 ^ 64 - 1

/-- Modelled from the spec (§6 wire messages): the wire enum
schema.public_key.Algorithm; the schema file is not part of src/, its two
values Ed25519 and SECP256R1 (P256) are the closed algorithm set of §3. -/
inductive Algorithm
  | ed25519
  | p256
deriving DecidableEq, Repr

/-- Modelled from the spec: the i32 value of the Ed25519 wire enum variant
(`Algorithm::Ed25519 as i32`). -/
def ed25519TagI32 : Int := 0

/-- Modelled from the spec: the i32 value of the SECP256R1/P256 wire enum
variant (`Algorithm::SECP256R1 as i32`). -/
def p256TagI32 : Int := 1

/-- error::Format from the error module (declared outside src/; variants are
those the five source files construct, and the spec §7 taxonomy). -/
inductive FormatError
  | invalidKey (msg : String)
  | invalidKeySize (n : Nat)
  | deserializationError (msg : String)
  | serializationError (msg : String)
  | version (minimum maximum actual : Nat)
  | unknownExternalKey
  | invalidSignatureGeneration (msg : String)
  | invalidSignature (msg : String)
  | blockSignatureDeserializationError (msg : String)
deriving DecidableEq, Repr

/-- Decidable equality for Except values, used to evaluate the model at
concrete inputs. -/
instance instDecidableEqExcept {ε α : Type} [DecidableEq ε] [DecidableEq α] :
    DecidableEq (Except ε α) := fun x y =>
  match x, y with
  | .ok a, .ok b =>
    if h : a = b then .isTrue (by rw [h])
    else .isFalse (fun hh => h (Except.ok.inj hh))
  | .error a, .error b =>
    if h : a = b then .isTrue (by rw [h])
    else .isFalse (fun hh => h (Except.error.inj hh))
  | .ok _, .error _ => .isFalse (fun hh => Except.noConfusion hh)
  | .error _, .ok _ => .isFalse (fun hh => Except.noConfusion hh)

/-- error::Token, restricted to the Format variant which is the only one the
modelled files produce. -/
inductive TokenError
  | format (e : FormatError)
deriving DecidableEq, Repr

/-- Wire message schema::PublicKey: {algorithm: enum-as-i32, key: bytes}. -/
structure ProtoPublicKey where
  algorithm : Int
  key : List Nat
deriving DecidableEq, Repr

namespace Ed25519

/-- crypto::ed25519::PublicKey, a wrapper around an ed25519_dalek public key;
its canonical encoding is 32 bytes.  Equality is byte equality (the PartialEq
impl compares to_bytes). -/
structure PublicKey where
  bytes : List Nat
deriving DecidableEq, Repr

/-- PublicKey::to_bytes. -/
def PublicKey.to_bytes (k : PublicKey) : List Nat := k.bytes

/-- PublicKey::from_bytes: ed25519_dalek validates that the input is exactly
32 bytes (curve-point validity is a leaf dependency of the external crate and
is not modelled). -/
def PublicKey.from_bytes (b : List Nat) : Except FormatError PublicKey :=
  if b.length = 32 then .ok ⟨b⟩
  else .error (.invalidKey "invalid key length")

/-- PublicKey::from_proto: requires the Ed25519 algorithm tag, then decodes
the raw bytes. -/
def PublicKey.from_proto (key : ProtoPublicKey) : Except FormatError PublicKey :=
  if key.algorithm ≠ ed25519TagI32 then
    .error (.deserializationError
      ("deserialization error: unexpected key algorithm " ++ toString key.algorithm))
  else
    PublicKey.from_bytes key.key

/-- PublicKey::to_proto. -/
def PublicKey.to_proto (k : PublicKey) : ProtoPublicKey :=
  ⟨ed25519TagI32, k.to_bytes⟩

/-- PublicKey::algorithm (ed25519.rs line 218). -/
def PublicKey.algorithm (_ : PublicKey) : Algorithm := .ed25519

/-- crypto::ed25519::PrivateKey, wrapping an ed25519_dalek secret key
(32 bytes of secret material). -/
structure PrivateKey where
  bytes : List Nat
deriving DecidableEq, Repr

/-- PrivateKey::algorithm (ed25519.rs line 135). -/
def PrivateKey.algorithm (_ : PrivateKey) : Algorithm := .ed25519

/-- Modelled from the spec: derivation of the ed25519 public key from the
secret scalar, a leaf operation of the external ed25519_dalek crate; only
its functional dependence on the secret matters to the claims. -/
def derivePublic (secret : List Nat) : List Nat := 0 :: secret

/-- PrivateKey::public. -/
def PrivateKey.public (k : PrivateKey) : PublicKey := ⟨derivePublic k.bytes⟩

/-- crypto::ed25519::KeyPair, owning an ed25519_dalek keypair. -/
structure KeyPair where
  secret : List Nat
  publicBytes : List Nat
deriving DecidableEq, Repr

/-- KeyPair::from(private_key): rebuilds the pair, rederiving the public
half from the secret. -/
def KeyPair.from (key : PrivateKey) : KeyPair :=
  ⟨key.bytes, derivePublic key.bytes⟩

/-- KeyPair::private. -/
def KeyPair.private (kp : KeyPair) : PrivateKey := ⟨kp.secret⟩

/-- KeyPair::public. -/
def KeyPair.public (kp : KeyPair) : PublicKey := ⟨kp.publicBytes⟩

/-- KeyPair::algorithm (ed25519.rs line 81). -/
def KeyPair.algorithm (_ : KeyPair) : Algorithm := .ed25519

/-- Modelled from the spec: ed25519 signing (ed25519_dalek try_sign), a leaf
cryptographic primitive (§5); the claims depend only on which message bytes
are signed with which secret, so the signature is modelled as a function of
exactly those two inputs. -/
def sign (secret : List Nat) (msg : List Nat) : List Nat :=
  secret.length :: (secret ++ msg)

end Ed25519

/-- token::public_keys::PublicKeys, the append-only interning table of
public keys (crypto::PublicKey is the ed25519 key in this revision). -/
structure PublicKeys where
  keys : List Ed25519.PublicKey
deriving DecidableEq, Repr

namespace PublicKeys

/-- PublicKeys::new. -/
def new : PublicKeys := ⟨[]⟩

/-- self.keys.iter().position(|key| key == k): index of the first structural
match. -/
def position (k : Ed25519.PublicKey) : List Ed25519.PublicKey → Option Nat
  | [] => none
  | key :: rest => if key = k then some 0 else (position k rest).map (· + 1)

/-- PublicKeys::insert: position of the first structural match if present,
else push and return the previous length.  Rust mutates in place and returns
the index; modelled as returning the pair (index, updated table). -/
def insert (t : PublicKeys) (k : Ed25519.PublicKey) : Nat × PublicKeys :=
  match position k t.keys with
  | some index => (index, t)
  | none => (t.keys.length, ⟨t.keys ++ [k]⟩)

/-- PublicKeys::get. -/
def get (t : PublicKeys) (k : Ed25519.PublicKey) : Option Nat :=
  position k t.keys

/-- PublicKeys::current_offset. -/
def current_offset (t : PublicKeys) : Nat := t.keys.length

/-- PublicKeys::get_key. -/
def get_key (t : PublicKeys) (i : Nat) : Option Ed25519.PublicKey :=
  t.keys[i]?

/-- PublicKeys::extend: appends without deduplication. -/
def extend (t : PublicKeys) (other : PublicKeys) : PublicKeys :=
  ⟨t.keys ++ other.keys⟩

/-- Folding insert over a list of keys, to state index stability under any
later sequence of inserts. -/
def insertMany (t : PublicKeys) (ks : List Ed25519.PublicKey) : PublicKeys :=
  ks.foldl (fun acc k => (acc.insert k).2) t

end PublicKeys

/-! ## Symbol table and datalog-facing collaborator types

The SymbolTable, Fact, Policy, Block and BlockBuilder types and their wire
conversions live outside src/ (datalog, builder and format::convert
modules); per the spec they are collaborators whose conversions preserve
semantic content (§1, §4.5), so they are modelled from the spec below. -/

/-- Modelled from the spec: datalog::SymbolTable — interned strings plus the
public-key interning table (§4.4); only its string list and key table are
relevant here. -/
structure SymbolTable where
  strings : List String
  public_keys : PublicKeys
deriving DecidableEq, Repr

namespace SymbolTable

/-- Modelled from the spec: SymbolTable::new(). -/
def new : SymbolTable := ⟨[], .new⟩

/-- Modelled from the spec: SymbolTable::insert — deduplicating append of a
string (stable indices, §4.4). -/
def insertString (t : SymbolTable) (s : String) : SymbolTable :=
  if s ∈ t.strings then t else ⟨t.strings ++ [s], t.public_keys⟩

/-- Modelled from the spec: SymbolTable::extend — appends the other table's
strings. -/
def extendStrings (t : SymbolTable) (ss : List String) : SymbolTable :=
  ⟨t.strings ++ ss, t.public_keys⟩

end SymbolTable

/-- Modelled from the spec: token::default_symbol_table() — a fresh immutable
base table (§9); its built-in default strings are external to the modelled
state and taken as empty. -/
def default_symbol_table : SymbolTable := ⟨[], .new⟩

/-- Insertion into a strictly-sorted duplicate-free list, the model of
BTreeSet::insert (machine-computable and kernel-reducible). -/
def insertSorted (x : Nat) : List Nat → List Nat
  | [] => [x]
  | y :: rest =>
    if x < y then x :: y :: rest
    else if x = y then y :: rest
    else y :: insertSorted x rest

/-- The provenance tag: a set of block indices plus the reserved authorizer
sentinel usize::MAX (datalog::Origin, a BTreeSet in the source).  The set is
modelled as its canonical ascending duplicate-free element list, the order
BTreeSet iteration produces; insertIdx maintains canonicity. -/
structure Origin where
  inner : List Nat
deriving DecidableEq, Repr

/-- Origin::default. -/
def Origin.default : Origin := ⟨[]⟩

/-- Origin::insert. -/
def Origin.insertIdx (o : Origin) (n : Nat) : Origin := ⟨insertSorted n o.inner⟩

/-- Wire shape schema::origin::Content: either the authorizer flag (a bool)
or a u32 block index. -/
inductive OriginContent
  | authorizer (b : Bool)
  | origin (o : Nat)
deriving DecidableEq, Repr

/-- Wire message schema::Origin, whose content field is optional. -/
structure ProtoOrigin where
  content : Option OriginContent
deriving DecidableEq, Repr

/-- The shapes proto_origin_to_authorizer_origin accepts: the authorizer
flag set to true, or a block index. -/
def isValidOriginTag (o : ProtoOrigin) : Bool :=
  match o.content with
  | some (.authorizer true) => true
  | some (.origin _) => true
  | _ => false

/-- The loop body of proto_origin_to_authorizer_origin (snapshot.rs lines
187-203), with the accumulated Origin made explicit. -/
def protoOriginLoop : Origin → List ProtoOrigin → Except FormatError Origin
  | acc, [] => .ok acc
  | acc, o :: rest =>
    match o.content with
    | some (.authorizer true) => protoOriginLoop (acc.insertIdx usizeMax) rest
    | some (.origin v) => protoOriginLoop (acc.insertIdx v) rest
    | _ => .error (.deserializationError "invalid origin")

/-- proto_origin_to_authorizer_origin: folds the wire origin list into an
Origin, failing on any element of invalid shape. -/
def proto_origin_to_authorizer_origin (origins : List ProtoOrigin) :
    Except FormatError Origin :=
  protoOriginLoop Origin.default origins

/-- authorizer_origin_to_proto_origin (snapshot.rs lines 169-185): the
sentinel becomes the authorizer flag, any other index is emitted as a u32
(`*o as u32`, hence % 2^32); BTreeSet iteration is ascending, the order of
the canonical element list. -/
def authorizer_origin_to_proto_origin (origin : Origin) : List ProtoOrigin :=
  origin.inner.map (fun o =>
    if o = usizeMax then ⟨some (.authorizer true)⟩
    else ⟨some (.origin (o % 2 ^ 32))⟩)

/-- Modelled from the spec: a datalog Fact as its semantic content (a
predicate name and term spellings); the datalog representation is an
external collaborator (§1). -/
structure Fact where
  name : String
  terms : List String
deriving DecidableEq, Repr

/-- Wire message for a Fact; the v2 conversions are index-preserving, so the
wire form carries the same content. -/
structure ProtoFact where
  name : String
  terms : List String
deriving DecidableEq, Repr

/-- Modelled from the spec: format::convert::v2::token_fact_to_proto_fact,
a content-preserving wire conversion. -/
def token_fact_to_proto_fact (f : Fact) : ProtoFact := ⟨f.name, f.terms⟩

/-- Modelled from the spec: format::convert::v2::proto_fact_to_token_fact. -/
def proto_fact_to_token_fact (pf : ProtoFact) : Except FormatError Fact :=
  .ok ⟨pf.name, pf.terms⟩

/-- Modelled from the spec: builder::Fact::convert_from — interpretation of
a datalog fact through a symbol table, preserving semantic content. -/
def Fact.convert_from (f : Fact) (_symbols : SymbolTable) : Except TokenError Fact :=
  .ok f

/-- Modelled from the spec: builder::Fact::convert — re-interning the fact
into the target table (which grows monotonically by the fact's strings). -/
def Fact.convert (f : Fact) (symbols : SymbolTable) : Fact × SymbolTable :=
  (f, (f.name :: f.terms).foldl SymbolTable.insertString symbols)

/-- Modelled from the spec: a Policy as opaque semantic content; its
authoring DSL is an external collaborator (§1). -/
structure Policy where
  content : String
deriving DecidableEq, Repr

/-- Wire message for a Policy. -/
structure ProtoPolicy where
  content : String
deriving DecidableEq, Repr

/-- Modelled from the spec: format::convert::v2::policy_to_proto_policy —
translates the policy into the snapshot symbol table (passed mutably),
preserving content. -/
def policy_to_proto_policy (p : Policy) (symbols : SymbolTable) :
    ProtoPolicy × SymbolTable :=
  (⟨p.content⟩, symbols)

/-- Modelled from the spec: format::convert::v2::proto_policy_to_policy. -/
def proto_policy_to_policy (pp : ProtoPolicy) (_symbols : SymbolTable)
    (_version : Nat) : Except FormatError Policy :=
  .ok ⟨pp.content⟩

/-- token::Block (declared outside src/): per spec §3 a block is opaque
payload plus its declared symbols, its public-key table and an optional
external-signer key when third-party-authored. -/
structure Block where
  symbols : List String
  public_keys : PublicKeys
  external_key : Option Ed25519.PublicKey
  payload : List Nat
deriving DecidableEq, Repr

/-- Wire message schema::Block (§6): payload bytes, declared symbols and
public keys; the external signature travels outside this message and is
reinstated by the caller of proto_block_to_token_block. -/
structure ProtoBlock where
  symbols : List String
  publicKeys : List ProtoPublicKey
  payload : List Nat
deriving DecidableEq, Repr

/-- Modelled from the spec: format::convert::token_block_to_proto_block, a
content-preserving render of a block to wire form. -/
def token_block_to_proto_block (b : Block) : ProtoBlock :=
  ⟨b.symbols, b.public_keys.keys.map Ed25519.PublicKey.to_proto, b.payload⟩

/-- Modelled from the spec: format::convert::proto_block_to_token_block —
rebuilds a block from wire form (same error classes as token parsing), the
external key being supplied by the caller. -/
def proto_block_to_token_block (pb : ProtoBlock)
    (external_key : Option Ed25519.PublicKey) : Except FormatError Block := do
  let keys ← pb.publicKeys.mapM Ed25519.PublicKey.from_proto
  .ok ⟨pb.symbols, ⟨keys⟩, external_key, pb.payload⟩

/-- Modelled from the spec: builder::BlockBuilder — the pending-block
content (symbols, keys, payload) before rendering. -/
structure BlockBuilder where
  symbols : List String
  public_keys : PublicKeys
  payload : List Nat
deriving DecidableEq, Repr

namespace BlockBuilder

/-- Modelled from the spec: BlockBuilder::new(). -/
def new : BlockBuilder := ⟨[], .new, []⟩

/-- Modelled from the spec: BlockBuilder::build — renders the pending block
against a symbol table, preserving its content. -/
def build (bb : BlockBuilder) (_symbols : SymbolTable) : Block :=
  ⟨bb.symbols, bb.public_keys, none, bb.payload⟩

/-- Modelled from the spec: BlockBuilder::convert_from — recovers builder
content from a rendered block. -/
def convert_from (b : Block) (_symbols : SymbolTable) :
    Except TokenError BlockBuilder :=
  .ok ⟨b.symbols, b.public_keys, b.payload⟩

end BlockBuilder

/-- The origin-keyed fact store (datalog world facts, a map from Origin to a
set of facts); HashMap iteration is modelled deterministically by an
association list in insertion order. -/
structure FactStore where
  inner : List (Origin × List Fact)
deriving DecidableEq

/-- Insertion into the fact store: add the fact to the origin's set. -/
def factStoreInsert : List (Origin × List Fact) → Origin → Fact →
    List (Origin × List Fact)
  | [], o, f => [(o, [f])]
  | (o₂, fs) :: rest, o, f =>
    if o₂ = o then (o₂, if f ∈ fs then fs else fs ++ [f]) :: rest
    else (o₂, fs) :: factStoreInsert rest o f

/-- world.facts.insert(&origin, fact). -/
def FactStore.insertFact (s : FactStore) (o : Origin) (f : Fact) : FactStore :=
  ⟨factStoreInsert s.inner o f⟩

/-- token::Scope, of which from_snapshot only uses the Previous variant. -/
inductive Scope
  | previous
deriving DecidableEq, Repr

/-- Modelled from the spec: datalog::TrustedOrigins, the externally-computed
set of permitted Origins (§3: the core supplies the key→block map it is
computed from, it does not implement the algebra). -/
structure TrustedOrigins where
  inner : List Origin
deriving DecidableEq

/-- TrustedOrigins::default. -/
def TrustedOrigins.default : TrustedOrigins := ⟨[]⟩

/-- Modelled from the spec: TrustedOrigins::from_scopes, an external
collaborator computation whose value is irrelevant to the claims. -/
def TrustedOrigins.from_scopes (_scopes : List Scope)
    (_defaultOrigins : TrustedOrigins) (_blockCount : Nat)
    (_publicKeyToBlockId : List (Nat × List Nat)) : TrustedOrigins :=
  ⟨[]⟩

/-- Association-list lookup, the model of HashMap::get. -/
def assocLookup {α : Type} : List (Nat × α) → Nat → Option α
  | [], _ => none
  | p :: rest, i => if p.1 = i then some p.2 else assocLookup rest i

/-- Association-list insertion, the model of HashMap::insert (overwrites an
existing binding, else appends). -/
def assocInsert {α : Type} : List (Nat × α) → Nat → α → List (Nat × α)
  | [], i, v => [(i, v)]
  | (j, w) :: rest, i, v =>
    if j = i then (i, v) :: rest else (j, w) :: assocInsert rest i v

/-- The live Authorizer state, restricted to the fields snapshot.rs reads
and writes; the two HashMaps are modelled as association lists (a
determinization of their iteration order). -/
structure Authorizer where
  symbols : SymbolTable
  authorizer_block_builder : BlockBuilder
  policies : List Policy
  public_key_to_block_id : List (Nat × List Nat)
  blocks : Option (List Block)
  token_origins : TrustedOrigins
  world : FactStore
deriving DecidableEq

/-- Authorizer::new(): empty state. -/
def Authorizer.new : Authorizer :=
  ⟨default_symbol_table, BlockBuilder.new, [], [], none, TrustedOrigins.default, ⟨[]⟩⟩

/-- Modelled from the spec: Authorizer::add_block — registers a restored
block through the same provenance machinery a freshly-verified token would
use (§4.5); the datalog loading it performs is an external collaborator
(§1) and does not alter the state modelled here. -/
def Authorizer.add_block (a : Authorizer) (_b : Block) (_i : Nat)
    (_token_symbols : SymbolTable) : Except TokenError Authorizer :=
  .ok a

/-- Wire message: one entry of the snapshot's public_key_map. -/
structure KeyMap where
  key : ProtoPublicKey
  block_ids : List Nat
deriving DecidableEq, Repr

/-- Wire message: one {origins, facts} record of the snapshot. -/
structure GeneratedFacts where
  origins : List ProtoOrigin
  facts : List ProtoFact
deriving DecidableEq, Repr

/-- Wire message schema::AuthorizerSnapshot (§6). -/
structure AuthorizerSnapshot where
  version : Option Nat
  symbols : List String
  blocks : List ProtoBlock
  authorizer_block : ProtoBlock
  generated_facts : List GeneratedFacts
  policies : List ProtoPolicy
  public_key_map : List KeyMap
deriving DecidableEq

/-- Modelled from the spec: token::MIN_SCHEMA_VERSION (declared outside
src/); the claims depend only on the interval check, not the value. -/
def MIN_SCHEMA_VERSION : Nat := 3

/-- Modelled from the spec: token::MAX_SCHEMA_VERSION (declared outside
src/). -/
def MAX_SCHEMA_VERSION : Nat := 4

/-- The public_key_map loop of from_snapshot (snapshot.rs lines 38-52):
parses each key, interns it, records key→block and key-index→blocks
bindings. -/
def processKeyMaps :
    List KeyMap → SymbolTable → List (Nat × Ed25519.PublicKey) →
    List (Nat × List Nat) →
    Except FormatError
      (List (Nat × Ed25519.PublicKey) × List (Nat × List Nat) × SymbolTable)
  | [], symbols, externalKeys, pkMap => .ok (externalKeys, pkMap, symbols)
  | km :: rest, symbols, externalKeys, pkMap =>
    match Ed25519.PublicKey.from_proto km.key with
    | .error e => .error e
    | .ok public_key =>
      let r := symbols.public_keys.insert public_key
      let externalKeys₂ :=
        km.block_ids.foldl (fun m i => assocInsert m i public_key) externalKeys
      processKeyMaps rest ⟨symbols.strings, r.2⟩ externalKeys₂
        (assocInsert pkMap r.1 km.block_ids)

/-- The block loop of from_snapshot (snapshot.rs lines 69-83): for each
block, absorb its symbols into the shared token symbol table unless the
block is externally keyed, rebuild it and register it. -/
def blocksLoop (externalKeys : List (Nat × Ed25519.PublicKey)) :
    Authorizer → List (Nat × ProtoBlock) → SymbolTable → List Block →
    Except TokenError (Authorizer × SymbolTable × List Block)
  | a, [], ts, bs => .ok (a, ts, bs)
  | a, (i, pb) :: rest, ts, bs =>
    let ts₂ :=
      if assocLookup externalKeys i = none then
        pb.symbols.foldl SymbolTable.insertString ts
      else ts
    match proto_block_to_token_block pb (assocLookup externalKeys i) with
    | .error e => .error (.format e)
    | .ok b =>
      match a.add_block b i ts₂ with
      | .error e => .error e
      | .ok a₂ => blocksLoop externalKeys a₂ rest ts₂ (bs ++ [b])

/-- The generated_facts inner loop of from_snapshot (snapshot.rs lines
98-103): each wire fact is rebuilt, interpreted through the token symbol
table, re-interned into the authorizer's table and stored under the
record's origin. -/
def factsInnerLoop (token_symbols : SymbolTable) (origin : Origin) :
    Authorizer → List ProtoFact → Except TokenError Authorizer
  | a, [] => .ok a
  | a, pf :: rest =>
    match proto_fact_to_token_fact pf with
    | .error e => .error (.format e)
    | .ok f =>
      match Fact.convert_from f token_symbols with
      | .error e => .error e
      | .ok f₂ =>
        let r := f₂.convert a.symbols
        factsInnerLoop token_symbols origin
          { a with symbols := r.2, world := a.world.insertFact origin r.1 } rest

/-- The generated_facts outer loop of from_snapshot (snapshot.rs lines
95-104). -/
def factsLoop (token_symbols : SymbolTable) :
    Authorizer → List GeneratedFacts → Except TokenError Authorizer
  | a, [] => .ok a
  | a, gf :: rest =>
    match proto_origin_to_authorizer_origin gf.origins with
    | .error e => .error (.format e)
    | .ok origin =>
      match factsInnerLoop token_symbols origin a gf.facts with
      | .error e => .error e
      | .ok a₂ => factsLoop token_symbols a₂ rest

/-- Everything from_snapshot does after the version check (snapshot.rs
lines 33-106). -/
def from_snapshot_body (input : AuthorizerSnapshot) (version : Nat) :
    Except TokenError Authorizer :=
  match processKeyMaps input.public_key_map
      (input.symbols.foldl SymbolTable.insertString default_symbol_table) [] [] with
  | .error e => .error (.format e)
  | .ok (externalKeys, pkMap, symbols₂) =>
    match proto_block_to_token_block input.authorizer_block none with
    | .error e => .error (.format e)
    | .ok authorizer_block =>
      match BlockBuilder.convert_from authorizer_block symbols₂ with
      | .error e => .error e
      | .ok abb =>
        match input.policies.mapM
            (fun p => proto_policy_to_policy p symbols₂ version) with
        | .error e => .error (.format e)
        | .ok policies =>
          match blocksLoop externalKeys
              { Authorizer.new with
                symbols := symbols₂
                authorizer_block_builder := abb
                policies := policies
                public_key_to_block_id := pkMap }
              input.blocks.enum default_symbol_table [] with
          | .error e => .error e
          | .ok (a₂, token_symbols, blocks) =>
            factsLoop token_symbols
              (if blocks.isEmpty then a₂
               else { a₂ with
                 token_origins := TrustedOrigins.from_scopes [Scope.previous]
                   TrustedOrigins.default blocks.length a₂.public_key_to_block_id
                 blocks := some blocks })
              input.generated_facts

/-- Authorizer::from_snapshot (snapshot.rs lines 22-107): validates that
the version (0 when absent) lies within the supported interval, then
rebuilds the full state. -/
def from_snapshot (input : AuthorizerSnapshot) : Except TokenError Authorizer :=
  if MIN_SCHEMA_VERSION ≤ input.version.getD 0 ∧
      input.version.getD 0 ≤ MAX_SCHEMA_VERSION then
    from_snapshot_body input (input.version.getD 0)
  else
    .error (.format (.version MIN_SCHEMA_VERSION MAX_SCHEMA_VERSION
      (input.version.getD 0)))

/-- The public_key_map emission loop of snapshot (snapshot.rs lines
143-155): resolves every mapped key index through the interning table,
failing with UnknownExternalKey on a dangling index; each block id is
emitted as `*id as u32` (line 153), a wrapping cast written % 2^32. -/
def publicKeyMapLoop : List (Nat × List Nat) → PublicKeys →
    Except FormatError (List KeyMap)
  | [], _ => .ok []
  | (key_id, block_ids) :: rest, table =>
    match table.get_key key_id with
    | none => .error .unknownExternalKey
    | some key =>
      match publicKeyMapLoop rest table with
      | .error e => .error e
      | .ok tail => .ok (⟨key.to_proto, block_ids.map (· % 2 ^ 32)⟩ :: tail)

/-- The policy emission fold of snapshot (snapshot.rs lines 112-116),
threading the fresh symbol table. -/
def policiesFold (ps : List Policy) (symbols : SymbolTable) :
    List ProtoPolicy × SymbolTable :=
  ps.foldl (fun acc p =>
    let r := policy_to_proto_policy p acc.2
    (acc.1 ++ [r.1], r.2)) ([], symbols)

/-- Authorizer::snapshot (snapshot.rs lines 109-166): renders policies, the
authorizer's own block, every token block, the origin-tagged facts and the
external-key map into a self-contained capture stamped with the maximum
schema version. -/
def snapshot (a : Authorizer) : Except FormatError AuthorizerSnapshot :=
  let p := policiesFold a.policies default_symbol_table
  let authorizer_block := a.authorizer_block_builder.build p.2
  let symbols := (p.2.extendStrings authorizer_block.symbols)
  let symbols₂ : SymbolTable := ⟨symbols.strings,
    symbols.public_keys.extend authorizer_block.public_keys⟩
  let generated_facts := a.world.inner.map (fun q =>
    GeneratedFacts.mk (authorizer_origin_to_proto_origin q.1)
      (q.2.map token_fact_to_proto_fact))
  match publicKeyMapLoop a.public_key_to_block_id a.symbols.public_keys with
  | .error e => .error e
  | .ok public_key_map =>
    .ok ⟨some MAX_SCHEMA_VERSION, symbols₂.strings,
      (a.blocks.getD []).map token_block_to_proto_block,
      token_block_to_proto_block authorizer_block,
      generated_facts, p.1, public_key_map⟩

/-- snapshot followed by from_snapshot, the round trip of claim C1. -/
def roundTrip (a : Authorizer) : Except TokenError Authorizer :=
  match snapshot a with
  | .error e => .error (.format e)
  | .ok s => from_snapshot s

/-- The key association an authorizer's external-key map encodes: each
key-table index of public_key_to_block_id resolved to the actual public
key it denotes, paired with its block ids. -/
def Authorizer.keyAssoc (a : Authorizer) : List (Ed25519.PublicKey × List Nat) :=
  a.public_key_to_block_id.filterMap (fun p =>
    (a.symbols.public_keys.get_key p.1).map (fun k => (k, p.2)))

/-- Well-formedness of a live authorizer state: every external-key index of
the map resolves to a 32-byte key, distinct map entries denote distinct
keys, every block id in the map fits in u32 (the wire carries block ids as
u32, and snapshot emission casts them with `*id as u32`), every public key
stored in a block or in the pending authorizer block has its canonical
32-byte encoding, every stored origin is canonical for the wire round trip
(entries are the sentinel or fit in u32), origins are distinct store keys
and each origin's fact list is duplicate-free and nonempty. -/
def Authorizer.wfB (a : Authorizer) : Bool :=
  a.public_key_to_block_id.all (fun p =>
    match a.symbols.public_keys.get_key p.1 with
    | some k => decide (k.bytes.length = 32)
    | none => false) &&
  decide ((a.public_key_to_block_id.filterMap
    (fun p => a.symbols.public_keys.get_key p.1)).Nodup) &&
  a.public_key_to_block_id.all (fun p =>
    p.2.all (fun i => decide (i < 2 ^ 32))) &&
  a.authorizer_block_builder.public_keys.keys.all
    (fun k => decide (k.bytes.length = 32)) &&
  (a.blocks.getD []).all (fun b =>
    b.public_keys.keys.all (fun k => decide (k.bytes.length = 32))) &&
  a.world.inner.all (fun q =>
    decide (∀ x ∈ q.1.inner, x = usizeMax ∨ x < 2 ^ 32) &&
    decide (List.Pairwise (· < ·) q.1.inner) &&
    decide (q.2.Nodup) && decide (q.2 ≠ [])) &&
  decide ((a.world.inner.map Prod.fst).Nodup)

/-- The union of all block-id lists of a snapshot's external-key map: the
indices of the third-party-signed blocks. -/
def externalBlockIds (input : AuthorizerSnapshot) : List Nat :=
  (input.public_key_map.map (fun km => km.block_ids)).flatten

/-- The token-symbol-table fold the from_snapshot block loop performs: a
block's declared symbols are absorbed only when its index has no external
key. -/
def tokenSymbolsLoop (externalKeys : List (Nat × Ed25519.PublicKey))
    (pbs : List (Nat × ProtoBlock)) (ts : SymbolTable) : SymbolTable :=
  pbs.foldl (fun acc p =>
    if assocLookup externalKeys p.1 = none then
      p.2.symbols.foldl SymbolTable.insertString acc
    else acc) ts

/-- The shared first-party token symbol table from_snapshot builds for a
snapshot input (default table, then the symbols of the non-externally-keyed
blocks in order). -/
def tokenSymbolsOf (input : AuthorizerSnapshot) : SymbolTable :=
  match processKeyMaps input.public_key_map
      (input.symbols.foldl SymbolTable.insertString default_symbol_table) [] [] with
  | .ok r => tokenSymbolsLoop r.1 input.blocks.enum default_symbol_table
  | .error _ => default_symbol_table

/-- Fields of the authorizer state untouched (or, for the interned strings,
only grown) by a processing stage. -/
def preservesCore (a a₂ : Authorizer) : Prop :=
  a₂.policies = a.policies ∧
  a₂.public_key_to_block_id = a.public_key_to_block_id ∧
  a₂.symbols.public_keys = a.symbols.public_keys ∧
  a₂.authorizer_block_builder = a.authorizer_block_builder ∧
  ∀ s ∈ a.symbols.strings, s ∈ a₂.symbols.strings

/-! ## Third-party block protocol (token/third_party.rs) -/

/-- Wire message schema::ExternalSignature. -/
structure ExternalSignature where
  signature : List Nat
  public_key : ProtoPublicKey
deriving DecidableEq, Repr

/-- Wire message schema::ThirdPartyBlockContents (§6). -/
structure ThirdPartyBlockContents where
  payload : List Nat
  external_signature : ExternalSignature
deriving DecidableEq, Repr

/-- Modelled from the spec: a deterministic byte encoding of a string, a
stand-in for the prost codec fragments. -/
def encodeString (s : String) : List Nat :=
  (s.toList.map Char.toNat) ++ [256]

/-- Modelled from the spec: prost encoding of a schema::PublicKey. -/
def encodeProtoPublicKey (k : ProtoPublicKey) : List Nat :=
  (k.algorithm % 256).toNat :: k.key ++ [257]

/-- Modelled from the spec: prost encoding of a schema::Block — the opaque
serialized pending-block payload of §4.3. -/
def encodeProtoBlock (b : ProtoBlock) : List Nat :=
  (b.symbols.map encodeString).flatten ++ [258] ++
    (b.publicKeys.map encodeProtoPublicKey).flatten ++ [258] ++ b.payload

/-- Modelled from the spec: prost encoding of ThirdPartyBlockContents, the
opaque response bytes {payload, external_signature{signature, public_key}}
of §4.3. -/
def encodeThirdPartyBlockContents (c : ThirdPartyBlockContents) : List Nat :=
  c.payload.length :: c.payload ++
    c.external_signature.signature.length :: c.external_signature.signature ++
    encodeProtoPublicKey c.external_signature.public_key

/-- The four little-endian bytes of an i32 value (i32::to_le_bytes). -/
def i32ToLeBytes (v : Int) : List Nat :=
  let u := (v % (2 : Int) ^ 32).toNat
  [u % 256, u / 256 % 256, u / 256 ^ 2 % 256, u / 256 ^ 3 % 256]

/-- token::third_party::Request: the first message of the handshake. -/
structure Request where
  previous_key : Ed25519.PublicKey
  public_keys : PublicKeys
  builder : BlockBuilder
deriving DecidableEq, Repr

/-- Request::create_response (third_party.rs lines 44-84): renders the
pending block to payload bytes, signs payload ++ 4-byte LE algorithm tag ++
previous-key bytes with the supplied private key, and serializes
{payload, external_signature{signature, public_key}}. -/
def Request.create_response (r : Request) (private_key : Ed25519.PrivateKey) :
    Except TokenError (List Nat) :=
  let symbols : SymbolTable := ⟨SymbolTable.new.strings, r.public_keys⟩
  let block := r.builder.build symbols
  let v := encodeProtoBlock (token_block_to_proto_block block)
  let payload := v
  let v₂ := v ++ i32ToLeBytes ed25519TagI32
  let v₃ := v₂ ++ r.previous_key.to_bytes
  let keypair := Ed25519.KeyPair.from private_key
  let signature := Ed25519.sign keypair.secret v₃
  let public_key := keypair.public
  let content : ThirdPartyBlockContents :=
    ⟨payload, ⟨signature, public_key.to_proto⟩⟩
  .ok (encodeThirdPartyBlockContents content)

/-! ## P256 key module (crypto/p256.rs) -/

namespace P256

/-- Modelled from the spec: derivation of the P256 verifying key (compressed
SEC1 point) from the signing key, a leaf operation of the external p256
crate. -/
def derivePublic (secret : List Nat) : List Nat := 2 :: secret

/-- crypto::p256::KeyPair, wrapping a p256 SigningKey. -/
structure KeyPair where
  kp : List Nat
deriving DecidableEq, Repr

/-- crypto::p256::PrivateKey. -/
structure PrivateKey where
  sk : List Nat
deriving DecidableEq, Repr

/-- crypto::p256::PublicKey, encoded as a compressed SEC1 point. -/
structure PublicKey where
  bytes : List Nat
deriving DecidableEq, Repr

/-- KeyPair::private. -/
def KeyPair.private (kp : KeyPair) : PrivateKey := ⟨kp.kp⟩

/-- KeyPair::public. -/
def KeyPair.public (kp : KeyPair) : PublicKey := ⟨derivePublic kp.kp⟩

/-- KeyPair::algorithm (p256.rs lines 67-69): returns the P256 tag. -/
def KeyPair.algorithm (_ : KeyPair) : Algorithm := .p256

/-- PrivateKey::algorithm (p256.rs lines 113-115): the source returns the
Ed25519 tag. -/
def PrivateKey.algorithm (_ : PrivateKey) : Algorithm := .ed25519

/-- PrivateKey::public. -/
def PrivateKey.public (k : PrivateKey) : PublicKey := ⟨derivePublic k.sk⟩

/-- PublicKey::from_bytes: VerifyingKey::from_sec1_bytes accepts a 33-byte
compressed or 65-byte uncompressed point (point validity is a leaf
dependency of the external crate and is not modelled). -/
def PublicKey.from_bytes (b : List Nat) : Except FormatError PublicKey :=
  if b.length = 33 ∨ b.length = 65 then .ok ⟨b⟩
  else .error (.invalidKey "invalid key length")

/-- PublicKey::from_proto (p256.rs lines 154-163): the source compares the
message's algorithm against the Ed25519 tag. -/
def PublicKey.from_proto (key : ProtoPublicKey) : Except FormatError PublicKey :=
  if key.algorithm ≠ ed25519TagI32 then
    .error (.deserializationError
      ("deserialization error: unexpected key algorithm " ++ toString key.algorithm))
  else
    PublicKey.from_bytes key.key

/-- PublicKey::to_proto (p256.rs lines 165-170): the source emits the
Ed25519 tag. -/
def PublicKey.to_proto (k : PublicKey) : ProtoPublicKey :=
  ⟨ed25519TagI32, k.bytes⟩

/-- PublicKey::algorithm (p256.rs lines 191-193): the source returns the
Ed25519 tag. -/
def PublicKey.algorithm (_ : PublicKey) : Algorithm := .ed25519

end P256

/-- The payload bytes create_response renders and signs: the serialized
pending block built against the request's interned keys. -/
def responsePayload (r : Request) : List Nat :=
  encodeProtoBlock (token_block_to_proto_block
    (r.builder.build ⟨SymbolTable.new.strings, r.public_keys⟩))

/-! ## Concrete sample values used by witnesses and counterexamples -/

/-- A 32-byte sample key. -/
def cexK0 : Ed25519.PublicKey := ⟨List.replicate 32 7⟩

/-- A second, distinct 32-byte sample key. -/
def cexK1 : Ed25519.PublicKey := ⟨List.replicate 32 9⟩

/-- A small live authorizer whose key-interning table holds a key (cexK0)
that is not an external signer besides one that is (cexK1), so that
external key indices do not start at 0. -/
def cexAuthorizer : Authorizer :=
  { symbols := ⟨["sym1"], ⟨[cexK0, cexK1]⟩⟩
    authorizer_block_builder := ⟨["absym"], ⟨[]⟩, [1, 2]⟩
    policies := [⟨"allow if true"⟩]
    public_key_to_block_id := [(1, [0])]
    blocks := some [⟨["bsym"], ⟨[]⟩, some cexK1, [3]⟩]
    token_origins := ⟨[]⟩
    world := ⟨[(⟨[0, usizeMax]⟩, [⟨"f", ["a"]⟩])]⟩ }

/-- The snapshot of the sample authorizer (total by construction). -/
def cexSnapshot : AuthorizerSnapshot :=
  match snapshot cexAuthorizer with
  | .ok s => s
  | .error _ => ⟨some MAX_SCHEMA_VERSION, [], [], ⟨[], [], []⟩, [], [], []⟩

/-- The authorizer restored from the sample snapshot. -/
def cexRestored : Authorizer :=
  match from_snapshot cexSnapshot with
  | .ok a => a
  | .error _ => Authorizer.new

/-- A snapshot message whose optional version field is absent. -/
def noVersionSnapshot : AuthorizerSnapshot :=
  ⟨none, [], [], ⟨[], [], []⟩, [], [], []⟩

/-- A sample 33-byte compressed-point encoding of a P256 public key. -/
def p256SampleKeyBytes : List Nat := 2 :: List.replicate 32 5

/-- A sample P256 key pair. -/
def p256SampleKeyPair : P256.KeyPair := ⟨List.replicate 32 5⟩

end Biscuit

namespace Biscuit

/-! ## Properties of the interning table (public_keys.rs) -/

/-- Characterization of iter().position(): it returns the least index whose
entry matches. -/
theorem position_eq_some_iff (k : Ed25519.PublicKey) :
    ∀ (l : List Ed25519.PublicKey) (i : Nat),
    PublicKeys.position k l = some i ↔
      (l[i]? = some k ∧ ∀ j, j < i → l[j]? ≠ some k) := by
  intro l
  induction l with
  | nil => intro i; simp [PublicKeys.position]
  | cons a l ih =>
    intro i
    by_cases ha : a = k
    · subst ha
      constructor
      · intro h
        have hi : i = 0 := by
          simp [PublicKeys.position] at h
          omega
        subst hi
        exact ⟨by simp, by intro j hj; omega⟩
      · rintro ⟨h1, h2⟩
        cases i with
        | zero => simp [PublicKeys.position]
        | succ n => exact absurd (by simp) (h2 0 (Nat.succ_pos n))
    · constructor
      · intro h
        simp only [PublicKeys.position, if_neg ha] at h
        cases hp : PublicKeys.position k l with
        | none => rw [hp] at h; simp at h
        | some n =>
          rw [hp] at h
          simp only [Option.map_some', Option.some.injEq] at h
          obtain ⟨hl1, hl2⟩ := (ih n).mp hp
          subst h
          refine ⟨by simpa using hl1, ?_⟩
          intro j hj
          cases j with
          | zero => simpa using ha
          | succ m => simpa using hl2 m (by omega)
      · rintro ⟨h1, h2⟩
        cases i with
        | zero => simp at h1; exact absurd h1 ha
        | succ n =>
          have hp : PublicKeys.position k l = some n := by
            apply (ih n).mpr
            refine ⟨by simpa using h1, ?_⟩
            intro j hj
            simpa using h2 (j + 1) (by omega)
          simp [PublicKeys.position, if_neg ha, hp]

/-- position() returns none exactly when the key is absent. -/
theorem position_eq_none_iff (k : Ed25519.PublicKey) :
    ∀ (l : List Ed25519.PublicKey),
    PublicKeys.position k l = none ↔ k ∉ l := by
  intro l
  induction l with
  | nil => simp [PublicKeys.position]
  | cons a l ih =>
    by_cases ha : a = k
    · subst ha; simp [PublicKeys.position]
    · simp only [PublicKeys.position, if_neg ha, Option.map_eq_none', List.mem_cons]
      rw [ih]
      constructor
      · intro h hm
        rcases hm with h1 | h2
        · exact ha h1.symm
        · exact h h2
      · intro h hm
        exact h (Or.inr hm)

/-- A single insert never moves an already-assigned index. -/
theorem insert_get_key_stable (t : PublicKeys) (k : Ed25519.PublicKey)
    (i : Nat) (h : i < t.current_offset) :
    (t.insert k).2.get_key i = t.get_key i := by
  unfold PublicKeys.insert
  cases hp : PublicKeys.position k t.keys with
  | some n => simp
  | none =>
    simp only [PublicKeys.get_key]
    exact List.getElem?_append_left h

/-- Insertion only grows the table. -/
theorem insert_offset_le (t : PublicKeys) (k : Ed25519.PublicKey) :
    t.current_offset ≤ (t.insert k).2.current_offset := by
  unfold PublicKeys.insert
  cases hp : PublicKeys.position k t.keys with
  | some n => simp
  | none => simp [PublicKeys.current_offset]

/-- No sequence of later inserts moves an already-assigned index. -/
theorem insertMany_get_key_stable (ks : List Ed25519.PublicKey) :
    ∀ (t : PublicKeys) (i : Nat), i < t.current_offset →
    (t.insertMany ks).get_key i = t.get_key i := by
  induction ks with
  | nil => intro t i _; rfl
  | cons k ks ih =>
    intro t i h
    have h2 : i < (t.insert k).2.current_offset :=
      lt_of_lt_of_le h (insert_offset_le t k)
    calc (t.insertMany (k :: ks)).get_key i
        = ((t.insert k).2.insertMany ks).get_key i := rfl
      _ = (t.insert k).2.get_key i := ih _ i h2
      _ = t.get_key i := insert_get_key_stable t k i h

/-- C5 trial -/
theorem publicKeys_insert_contract (t : PublicKeys) (k : Ed25519.PublicKey) :
    (∀ i, t.get_key i = some k → (∀ j, j < i → t.get_key j ≠ some k) →
      (t.insert k).1 = i ∧ (t.insert k).2 = t) ∧
    ((∀ i, t.get_key i ≠ some k) →
      (t.insert k).1 = t.current_offset ∧
      (t.insert k).2.current_offset = t.current_offset + 1 ∧
      (t.insert k).2.get_key t.current_offset = some k) ∧
    (∀ ks i, i < t.current_offset →
      (t.insertMany ks).get_key i = t.get_key i) := by
  refine ⟨?_, ?_, ?_⟩
  · intro i hi hfirst
    have hp : PublicKeys.position k t.keys = some i :=
      (position_eq_some_iff k t.keys i).mpr
        ⟨hi, fun j hj => hfirst j hj⟩
    simp [PublicKeys.insert, hp]
  · intro hnone
    have hmem : k ∉ t.keys := by
      intro hk
      obtain ⟨n, hn⟩ := List.mem_iff_getElem?.mp hk
      exact hnone n hn
    have hp : PublicKeys.position k t.keys = none :=
      (position_eq_none_iff k t.keys).mpr hmem
    refine ⟨by simp [PublicKeys.insert, hp, PublicKeys.current_offset], ?_, ?_⟩
    · simp [PublicKeys.insert, hp, PublicKeys.current_offset]
    · simp [PublicKeys.insert, hp, PublicKeys.current_offset,
        PublicKeys.get_key, List.getElem?_concat_length]
  · intro ks i h
    exact insertMany_get_key_stable ks t i h


/-! ## Origin deserialization (snapshot.rs lines 187-203) -/

/-- Membership after a sorted-set insertion. -/
theorem mem_insertSorted (x : Nat) :
    ∀ (l : List Nat) (y : Nat), y ∈ insertSorted x l ↔ y = x ∨ y ∈ l := by
  intro l
  induction l with
  | nil => intro y; simp [insertSorted]
  | cons z rest ih =>
    intro y
    by_cases h1 : x < z
    · have hred : insertSorted x (z :: rest) = x :: z :: rest := by
        simp [insertSorted, h1]
      rw [hred]
      simp only [List.mem_cons]
    · by_cases h2 : x = z
      · subst h2
        have hred : insertSorted x (x :: rest) = x :: rest := by
          simp [insertSorted, h1]
        rw [hred]
        simp only [List.mem_cons]
        tauto
      · have hred : insertSorted x (z :: rest) = z :: insertSorted x rest := by
          simp [insertSorted, h1, h2]
        rw [hred]
        simp only [List.mem_cons, ih]
        tauto

/-- The loop succeeds exactly when every remaining element has a valid
shape. -/
theorem protoOriginLoop_ok_iff :
    ∀ (l : List ProtoOrigin) (acc : Origin),
    (∃ org, protoOriginLoop acc l = .ok org) ↔
      ∀ o ∈ l, isValidOriginTag o := by
  intro l
  induction l with
  | nil => intro acc; simp [protoOriginLoop]
  | cons o rest ih =>
    intro acc
    rcases o with ⟨co⟩
    rcases co with _ | oc
    · simp [protoOriginLoop, isValidOriginTag]
    · rcases oc with b | v
      · cases b
        · simp [protoOriginLoop, isValidOriginTag]
        · simp only [protoOriginLoop, List.mem_cons]
          rw [ih]
          constructor
          · intro h o ho
            rcases ho with h1 | h2
            · subst h1; rfl
            · exact h o h2
          · intro h o ho
            exact h o (Or.inr ho)
      · simp only [protoOriginLoop, List.mem_cons]
        rw [ih]
        constructor
        · intro h o ho
          rcases ho with h1 | h2
          · subst h1; rfl
          · exact h o h2
        · intro h o ho
          exact h o (Or.inr ho)

/-- When some remaining element is ill-shaped, the loop returns exactly the
"invalid origin" deserialization error. -/
theorem protoOriginLoop_error :
    ∀ (l : List ProtoOrigin) (acc : Origin),
    (¬ ∀ o ∈ l, isValidOriginTag o) →
    protoOriginLoop acc l = .error (.deserializationError "invalid origin") := by
  intro l
  induction l with
  | nil => intro acc h; exact absurd (by simp) h
  | cons o rest ih =>
    intro acc h
    rcases o with ⟨co⟩
    rcases co with _ | oc
    · simp [protoOriginLoop]
    · rcases oc with b | v
      · cases b
        · simp [protoOriginLoop]
        · apply ih
          intro hrest
          apply h
          intro o ho
          rcases List.mem_cons.mp ho with h1 | h2
          · subst h1; rfl
          · exact hrest o h2
      · apply ih
        intro hrest
        apply h
        intro o ho
        rcases List.mem_cons.mp ho with h1 | h2
        · subst h1; rfl
        · exact hrest o h2

/-- Contents of the Origin the loop builds: the accumulator plus the
sentinel for each authorizer flag and the index of each block-index tag. -/
theorem protoOriginLoop_mem :
    ∀ (l : List ProtoOrigin) (acc : Origin) (org : Origin),
    protoOriginLoop acc l = .ok org →
    ∀ x, x ∈ org.inner ↔
      (x ∈ acc.inner ∨
        (x = usizeMax ∧ (⟨some (.authorizer true)⟩ : ProtoOrigin) ∈ l) ∨
        (⟨some (.origin x)⟩ : ProtoOrigin) ∈ l) := by
  intro l
  induction l with
  | nil =>
    intro acc org h x
    simp only [protoOriginLoop, Except.ok.injEq] at h
    subst h
    simp
  | cons o rest ih =>
    intro acc org h x
    rcases o with ⟨co⟩
    rcases co with _ | oc
    · simp [protoOriginLoop] at h
    · rcases oc with b | v
      · cases b
        · simp [protoOriginLoop] at h
        · have := ih (acc.insertIdx usizeMax) org h x
          rw [this]
          simp only [Origin.insertIdx, mem_insertSorted, List.mem_cons]
          constructor
          · rintro ((h1 | h1) | h2 | h3)
            · exact Or.inr (Or.inl ⟨h1, Or.inl (by trivial)⟩)
            · exact Or.inl h1
            · exact Or.inr (Or.inl ⟨h2.1, Or.inr h2.2⟩)
            · exact Or.inr (Or.inr (Or.inr h3))
          · rintro (h1 | ⟨h2, h3 | h3⟩ | h4 | h4)
            · exact Or.inl (Or.inr h1)
            · exact Or.inl (Or.inl h2)
            · exact Or.inr (Or.inl ⟨h2, h3⟩)
            · cases h4
            · exact Or.inr (Or.inr h4)
      · have := ih (acc.insertIdx v) org h x
        rw [this]
        simp only [Origin.insertIdx, mem_insertSorted, List.mem_cons]
        constructor
        · rintro ((h1 | h1) | h2 | h3)
          · subst h1; exact Or.inr (Or.inr (Or.inl rfl))
          · exact Or.inl h1
          · exact Or.inr (Or.inl ⟨h2.1, Or.inr h2.2⟩)
          · exact Or.inr (Or.inr (Or.inr h3))
        · rintro (h1 | ⟨h2, h3 | h3⟩ | h4 | h4)
          · exact Or.inl (Or.inr h1)
          · cases h3
          · exact Or.inr (Or.inl ⟨h2, h3⟩)
          · cases h4; exact Or.inl (Or.inl rfl)
          · exact Or.inr (Or.inr h4)


/-- C9: deserializing a wire Origin list succeeds exactly when every element
is an authorizer-flag (flag set) or a block-index; on success the
authorizer-flag elements contribute the reserved sentinel index and the
block-index elements their index; any other element shape (including an
empty message) fails the whole call with the "invalid origin"
deserialization error. -/
theorem proto_origin_to_authorizer_origin_contract (origins : List ProtoOrigin) :
    ((∃ org, proto_origin_to_authorizer_origin origins = .ok org) ↔
      ∀ o ∈ origins, isValidOriginTag o) ∧
    ((¬ ∀ o ∈ origins, isValidOriginTag o) →
      proto_origin_to_authorizer_origin origins =
        .error (.deserializationError "invalid origin")) ∧
    (∀ org, proto_origin_to_authorizer_origin origins = .ok org →
      ∀ x, x ∈ org.inner ↔
        ((x = usizeMax ∧ (⟨some (.authorizer true)⟩ : ProtoOrigin) ∈ origins) ∨
          (⟨some (.origin x)⟩ : ProtoOrigin) ∈ origins)) := by
  refine ⟨protoOriginLoop_ok_iff origins Origin.default,
    protoOriginLoop_error origins Origin.default, ?_⟩
  intro org h x
  rw [protoOriginLoop_mem origins Origin.default org h x]
  simp [Origin.default]



/-! ## Version gate of from_snapshot (snapshot.rs lines 22-31) -/

/-- C6: from_snapshot proceeds past its first check to the state rebuild
exactly when the snapshot's version (0 when the field is absent) lies
within [MIN_SCHEMA_VERSION, MAX_SCHEMA_VERSION]; for any version outside
that interval it fails immediately — before any state is rebuilt — with a
Version error carrying exactly those two bounds and the offending value. -/
theorem from_snapshot_version_contract (input : AuthorizerSnapshot) :
    (MIN_SCHEMA_VERSION ≤ input.version.getD 0 ∧
        input.version.getD 0 ≤ MAX_SCHEMA_VERSION →
      from_snapshot input = from_snapshot_body input (input.version.getD 0)) ∧
    (¬ (MIN_SCHEMA_VERSION ≤ input.version.getD 0 ∧
        input.version.getD 0 ≤ MAX_SCHEMA_VERSION) →
      from_snapshot input =
        .error (.format (.version MIN_SCHEMA_VERSION MAX_SCHEMA_VERSION
          (input.version.getD 0)))) := by
  unfold from_snapshot
  constructor
  · intro h
    rw [if_pos h]
  · intro h
    rw [if_neg h]

/-- Witness for C6: a concrete out-of-range version is rejected with the
literal bounds. -/
theorem from_snapshot_version_contract_witness :
    from_snapshot ⟨some 99, [], [], ⟨[], [], []⟩, [], [], []⟩ =
      .error (.format (.version MIN_SCHEMA_VERSION MAX_SCHEMA_VERSION 99)) :=
  (from_snapshot_version_contract ⟨some 99, [], [], ⟨[], [], []⟩, [], [], []⟩).2
    (by decide)

/-- C10: when the snapshot's optional version field is absent, from_snapshot
treats the version as 0 — it proceeds exactly when 0 lies within
[MIN_SCHEMA_VERSION, MAX_SCHEMA_VERSION], and otherwise fails with a
Version error whose actual value is 0. -/
theorem from_snapshot_absent_version (input : AuthorizerSnapshot)
    (h : input.version = none) :
    (MIN_SCHEMA_VERSION ≤ 0 ∧ (0 : Nat) ≤ MAX_SCHEMA_VERSION →
      from_snapshot input = from_snapshot_body input 0) ∧
    (¬ (MIN_SCHEMA_VERSION ≤ 0 ∧ (0 : Nat) ≤ MAX_SCHEMA_VERSION) →
      from_snapshot input =
        .error (.format (.version MIN_SCHEMA_VERSION MAX_SCHEMA_VERSION 0))) := by
  have h0 : input.version.getD 0 = 0 := by rw [h]; rfl
  have := from_snapshot_version_contract input
  rw [h0] at this
  exact this

/-- Witness for C10: a concrete snapshot without a version field fails with
actual value 0. -/
theorem from_snapshot_absent_version_witness :
    from_snapshot noVersionSnapshot =
      .error (.format (.version MIN_SCHEMA_VERSION MAX_SCHEMA_VERSION 0)) :=
  (from_snapshot_absent_version noVersionSnapshot rfl).2 (by decide)

/-! ## Third-party response signing (third_party.rs lines 44-84) -/

/-- C4: create_response signs exactly the concatenation of the serialized
pending-block payload, the 4-byte little-endian chain-link algorithm tag
and the bytes of the request's previous key (the new block's own public key
is not part of the signed material), and the returned bytes encode
{payload, external_signature{signature, public key of the supplied private
key}}. -/
theorem create_response_contract (r : Request) (private_key : Ed25519.PrivateKey) :
    Request.create_response r private_key =
      .ok (encodeThirdPartyBlockContents
        ⟨responsePayload r,
          ⟨Ed25519.sign private_key.bytes
              (responsePayload r ++ i32ToLeBytes ed25519TagI32 ++
                r.previous_key.to_bytes),
            (private_key.public).to_proto⟩⟩) := by
  unfold Request.create_response responsePayload
  simp [Ed25519.KeyPair.from, Ed25519.KeyPair.public, Ed25519.PrivateKey.public,
    List.append_assoc]

/-! ## Algorithm-tag behavior of the P256 module (crypto/p256.rs) -/

/-- C3 divergence: p256's PublicKey::from_proto rejects a key message
carrying the P256 algorithm tag even with a valid 33-byte compressed point,
and accepts the same bytes under the Ed25519 tag; ed25519's from_proto
requires the Ed25519 tag as the claim states. -/
theorem p256_from_proto_tag_divergence :
    P256.PublicKey.from_proto ⟨p256TagI32, p256SampleKeyBytes⟩ =
      .error (.deserializationError
        "deserialization error: unexpected key algorithm 1") ∧
    P256.PublicKey.from_proto ⟨ed25519TagI32, p256SampleKeyBytes⟩ =
      .ok ⟨p256SampleKeyBytes⟩ ∧
    Ed25519.PublicKey.from_proto ⟨p256TagI32, List.replicate 32 1⟩ =
      .error (.deserializationError
        "deserialization error: unexpected key algorithm 1") ∧
    Ed25519.PublicKey.from_proto ⟨ed25519TagI32, List.replicate 32 1⟩ =
      .ok ⟨List.replicate 32 1⟩ := by
  refine ⟨?_, ?_, ?_, ?_⟩ <;> decide

/-- C8 divergence: for a P256 key pair the source's three algorithm
projections disagree — KeyPair::algorithm reports P256 while
PrivateKey::algorithm and PublicKey::algorithm report Ed25519; the three
ed25519 projections agree on Ed25519. -/
theorem p256_algorithm_divergence :
    P256.KeyPair.algorithm p256SampleKeyPair = Algorithm.p256 ∧
    P256.PrivateKey.algorithm (P256.KeyPair.private p256SampleKeyPair) =
      Algorithm.ed25519 ∧
    P256.PublicKey.algorithm (P256.KeyPair.public p256SampleKeyPair) =
      Algorithm.ed25519 ∧
    Algorithm.ed25519 ≠ Algorithm.p256 ∧
    (∀ kp : Ed25519.KeyPair,
      Ed25519.KeyPair.algorithm kp = Algorithm.ed25519 ∧
      Ed25519.PrivateKey.algorithm (Ed25519.KeyPair.private kp) =
        Algorithm.ed25519 ∧
      Ed25519.PublicKey.algorithm (Ed25519.KeyPair.public kp) =
        Algorithm.ed25519) := by
  refine ⟨rfl, rfl, rfl, by decide, fun kp => ⟨rfl, rfl, rfl⟩⟩

/-- Witness for C5: inserting a key present at index 0 returns 0 and leaves
the table unchanged. -/
theorem publicKeys_insert_contract_witness :
    ((⟨[cexK0]⟩ : PublicKeys).insert cexK0).1 = 0 ∧
    ((⟨[cexK0]⟩ : PublicKeys).insert cexK0).2 = ⟨[cexK0]⟩ :=
  (publicKeys_insert_contract ⟨[cexK0]⟩ cexK0).1 0 (by decide)
    (fun j hj => absurd hj (by omega))

/-- Witness for C9: a concrete ill-shaped element (empty message) fails with
the "invalid origin" error. -/
theorem proto_origin_contract_witness :
    proto_origin_to_authorizer_origin [(⟨none⟩ : ProtoOrigin)] =
      .error (.deserializationError "invalid origin") :=
  (proto_origin_to_authorizer_origin_contract [⟨none⟩]).2.1 (by decide)


/-! ## Symbol-table folds and the token symbol table of from_snapshot -/

/-- Membership after a deduplicating string insert. -/
theorem mem_insertString (t : SymbolTable) (x s : String) :
    s ∈ (t.insertString x).strings ↔ s ∈ t.strings ∨ s = x := by
  unfold SymbolTable.insertString
  split
  · rename_i hx
    constructor
    · exact Or.inl
    · rintro (h | h)
      · exact h
      · exact h ▸ hx
  · simp

/-- The deduplicating insert leaves the key table untouched. -/
theorem insertString_public_keys (t : SymbolTable) (x : String) :
    (t.insertString x).public_keys = t.public_keys := by
  unfold SymbolTable.insertString
  split <;> rfl

/-- Membership after folding string inserts over a list. -/
theorem mem_foldl_insertString (ss : List String) :
    ∀ (t : SymbolTable) (s : String),
    s ∈ (ss.foldl SymbolTable.insertString t).strings ↔
      s ∈ t.strings ∨ s ∈ ss := by
  induction ss with
  | nil => intro t s; simp
  | cons x ss ih =>
    intro t s
    rw [List.foldl_cons, ih, mem_insertString]
    simp only [List.mem_cons]
    tauto

/-- Folding string inserts leaves the key table untouched. -/
theorem foldl_insertString_public_keys (ss : List String) :
    ∀ (t : SymbolTable),
    (ss.foldl SymbolTable.insertString t).public_keys = t.public_keys := by
  induction ss with
  | nil => intro t; rfl
  | cons x ss ih =>
    intro t
    rw [List.foldl_cons, ih, insertString_public_keys]

/-- Membership in the token-symbol fold: the base strings plus the symbols
of the blocks whose index has no external key. -/
theorem mem_tokenSymbolsLoop (ek : List (Nat × Ed25519.PublicKey)) :
    ∀ (pbs : List (Nat × ProtoBlock)) (ts : SymbolTable) (s : String),
    s ∈ (tokenSymbolsLoop ek pbs ts).strings ↔
      s ∈ ts.strings ∨
        ∃ p ∈ pbs, assocLookup ek p.1 = none ∧ s ∈ p.2.symbols := by
  intro pbs
  induction pbs with
  | nil => intro ts s; simp [tokenSymbolsLoop]
  | cons p pbs ih =>
    intro ts s
    have hstep : tokenSymbolsLoop ek (p :: pbs) ts =
        tokenSymbolsLoop ek pbs
          (if assocLookup ek p.1 = none then
            p.2.symbols.foldl SymbolTable.insertString ts
          else ts) := rfl
    rw [hstep, ih]
    by_cases hl : assocLookup ek p.1 = none
    · rw [if_pos hl, mem_foldl_insertString]
      simp only [List.mem_cons]
      constructor
      · rintro ((h | h) | ⟨q, hq, hq2⟩)
        · exact Or.inl h
        · exact Or.inr ⟨p, Or.inl rfl, hl, h⟩
        · exact Or.inr ⟨q, Or.inr hq, hq2⟩
      · rintro (h | ⟨q, hq | hq, hq2⟩)
        · exact Or.inl (Or.inl h)
        · subst hq; exact Or.inl (Or.inr hq2.2)
        · exact Or.inr ⟨q, hq, hq2⟩
    · rw [if_neg hl]
      simp only [List.mem_cons]
      constructor
      · rintro (h | ⟨q, hq, hq2⟩)
        · exact Or.inl h
        · exact Or.inr ⟨q, Or.inr hq, hq2⟩
      · rintro (h | ⟨q, hq | hq, hq2⟩)
        · exact Or.inl h
        · subst hq; exact absurd hq2.1 hl
        · exact Or.inr ⟨q, hq, hq2⟩

/-- Lookup after one association-list insert. -/
theorem assocLookup_assocInsert {α : Type} (m : List (Nat × α)) (j i : Nat)
    (v : α) :
    assocLookup (assocInsert m j v) i =
      if j = i then some v else assocLookup m i := by
  induction m with
  | nil => simp [assocInsert, assocLookup]
  | cons p m ih =>
    by_cases hp : p.1 = j
    · simp only [assocInsert, if_pos hp]
      by_cases hj : j = i
      · simp [assocLookup, hj]
      · have : ¬ p.1 = i := by rw [hp]; exact hj
        simp [assocLookup, hj, this]
    · simp only [assocInsert, if_neg hp]
      by_cases hpi : p.1 = i
      · have : ¬ j = i := by intro h; exact hp (by rw [hpi, h])
        simp [assocLookup, hpi, this]
      · simp [assocLookup, hpi, ih]

/-- Lookup after folding inserts of one value over a list of indices. -/
theorem assocLookup_foldl_assocInsert {α : Type} (v : α) (ids : List Nat) :
    ∀ (m : List (Nat × α)) (i : Nat),
    assocLookup (ids.foldl (fun m j => assocInsert m j v) m) i = none ↔
      assocLookup m i = none ∧ i ∉ ids := by
  induction ids with
  | nil => intro m i; simp
  | cons j ids ih =>
    intro m i
    rw [List.foldl_cons, ih, assocLookup_assocInsert]
    by_cases hj : j = i
    · simp [hj]
    · simp only [if_neg hj, List.mem_cons]
      constructor
      · rintro ⟨h1, h2⟩
        exact ⟨h1, fun hh => by
          rcases hh with hh | hh
          · exact hj hh.symm
          · exact h2 hh⟩
      · rintro ⟨h1, h2⟩
        exact ⟨h1, fun hh => h2 (Or.inr hh)⟩

/-- The external-keys map processKeyMaps builds binds exactly the block ids
listed in the processed key maps (on top of the accumulator). -/
theorem processKeyMaps_lookup_none :
    ∀ (kms : List KeyMap) (sy : SymbolTable)
      (ek0 : List (Nat × Ed25519.PublicKey)) (pk0 : List (Nat × List Nat))
      (r : List (Nat × Ed25519.PublicKey) × List (Nat × List Nat) × SymbolTable),
    processKeyMaps kms sy ek0 pk0 = .ok r →
    ∀ i, assocLookup r.1 i = none ↔
      (assocLookup ek0 i = none ∧ ∀ km ∈ kms, i ∉ km.block_ids) := by
  intro kms
  induction kms with
  | nil =>
    intro sy ek0 pk0 r h i
    simp only [processKeyMaps, Except.ok.injEq] at h
    subst h
    simp
  | cons km kms ih =>
    intro sy ek0 pk0 r h i
    simp only [processKeyMaps] at h
    cases hp : Ed25519.PublicKey.from_proto km.key with
    | error e => rw [hp] at h; cases h
    | ok public_key =>
      rw [hp] at h
      dsimp only at h
      rw [ih _ _ _ r h i, assocLookup_foldl_assocInsert]
      simp only [List.mem_cons]
      constructor
      · rintro ⟨⟨h1, h2⟩, h3⟩
        refine ⟨h1, ?_⟩
        intro km2 hk
        rcases hk with hk | hk
        · subst hk; exact h2
        · exact h3 km2 hk
      · rintro ⟨h1, h2⟩
        exact ⟨⟨h1, h2 km (Or.inl rfl)⟩, fun km2 hk => h2 km2 (Or.inr hk)⟩

/-- processKeyMaps leaves the interned strings unchanged. -/
theorem processKeyMaps_strings :
    ∀ (kms : List KeyMap) (sy : SymbolTable)
      (ek0 : List (Nat × Ed25519.PublicKey)) (pk0 : List (Nat × List Nat))
      (r : List (Nat × Ed25519.PublicKey) × List (Nat × List Nat) × SymbolTable),
    processKeyMaps kms sy ek0 pk0 = .ok r → r.2.2.strings = sy.strings := by
  intro kms
  induction kms with
  | nil =>
    intro sy ek0 pk0 r h
    simp only [processKeyMaps, Except.ok.injEq] at h
    subst h
    rfl
  | cons km kms ih =>
    intro sy ek0 pk0 r h
    simp only [processKeyMaps] at h
    cases hp : Ed25519.PublicKey.from_proto km.key with
    | error e => rw [hp] at h; cases h
    | ok public_key =>
      rw [hp] at h
      dsimp only at h
      exact ih ⟨sy.strings, (sy.public_keys.insert public_key).2⟩ _ _ r h


/-! ## The block loop and state preservation through from_snapshot -/

/-- Inversion of a successful block loop: the authorizer passes through
unchanged (registration is an external collaborator) and the final token
symbol table is the conditional fold over the blocks. -/
theorem blocksLoop_ok_inv (ek : List (Nat × Ed25519.PublicKey)) :
    ∀ (pbs : List (Nat × ProtoBlock)) (a : Authorizer) (ts : SymbolTable)
      (bs : List Block) (r : Authorizer × SymbolTable × List Block),
    blocksLoop ek a pbs ts bs = .ok r →
    r.1 = a ∧ r.2.1 = tokenSymbolsLoop ek pbs ts := by
  intro pbs
  induction pbs with
  | nil =>
    intro a ts bs r h
    simp only [blocksLoop, Except.ok.injEq] at h
    subst h
    exact ⟨rfl, rfl⟩
  | cons p pbs ih =>
    intro a ts bs r h
    obtain ⟨i, pb⟩ := p
    simp only [blocksLoop] at h
    cases hc : proto_block_to_token_block pb (assocLookup ek i) with
    | error e => rw [hc] at h; cases h
    | ok b =>
      rw [hc] at h
      dsimp only [Authorizer.add_block] at h
      exact ih a _ _ r h

/-- mapM over from_proto succeeds when every element parses. -/
theorem mapM_from_proto_ok (pks : List ProtoPublicKey)
    (h : ∀ pk ∈ pks, ∃ k, Ed25519.PublicKey.from_proto pk = .ok k) :
    ∃ ks, pks.mapM Ed25519.PublicKey.from_proto = .ok ks := by
  induction pks with
  | nil => exact ⟨[], rfl⟩
  | cons pk pks ih =>
    obtain ⟨k, hk⟩ := h pk (List.mem_cons_self _ _)
    obtain ⟨ks, hks⟩ := ih (fun q hq => h q (List.mem_cons_of_mem _ hq))
    refine ⟨k :: ks, ?_⟩
    rw [List.mapM_cons, hk, hks]
    rfl

/-- The block loop succeeds whenever every block's embedded keys parse. -/
theorem blocksLoop_ok_of (ek : List (Nat × Ed25519.PublicKey)) :
    ∀ (pbs : List (Nat × ProtoBlock)) (a : Authorizer) (ts : SymbolTable)
      (bs : List Block),
    (∀ p ∈ pbs, ∀ pk ∈ p.2.publicKeys,
      ∃ k, Ed25519.PublicKey.from_proto pk = .ok k) →
    ∃ ts₂ bs₂, blocksLoop ek a pbs ts bs = .ok (a, ts₂, bs₂) := by
  intro pbs
  induction pbs with
  | nil => intro a ts bs _; exact ⟨ts, bs, rfl⟩
  | cons p pbs ih =>
    intro a ts bs hkeys
    obtain ⟨i, pb⟩ := p
    have hpb : ∀ pk ∈ pb.publicKeys, ∃ k, Ed25519.PublicKey.from_proto pk = .ok k :=
      fun pk hpk => hkeys (i, pb) (List.mem_cons_self _ _) pk hpk
    obtain ⟨ks, hks⟩ := mapM_from_proto_ok pb.publicKeys hpb
    have hc : proto_block_to_token_block pb (assocLookup ek i) =
        .ok ⟨pb.symbols, ⟨ks⟩, assocLookup ek i, pb.payload⟩ := by
      unfold proto_block_to_token_block
      rw [hks]
      rfl
    simp only [blocksLoop]
    rw [hc]
    dsimp only [Authorizer.add_block]
    exact ih a _ _ (fun q hq => hkeys q (List.mem_cons_of_mem _ hq))

/-- preservesCore is reflexive. -/
theorem preservesCore_refl (a : Authorizer) : preservesCore a a :=
  ⟨rfl, rfl, rfl, rfl, fun _ h => h⟩

/-- preservesCore is transitive. -/
theorem preservesCore_trans {a b c : Authorizer}
    (h1 : preservesCore a b) (h2 : preservesCore b c) : preservesCore a c := by
  obtain ⟨p1, p2, p3, p4, p5⟩ := h1
  obtain ⟨q1, q2, q3, q4, q5⟩ := h2
  exact ⟨q1.trans p1, q2.trans p2, q3.trans p3, q4.trans p4,
    fun s hs => q5 s (p5 s hs)⟩

/-- One step of the fact loops preserves the core fields. -/
theorem convert_preservesCore (a : Authorizer) (f : Fact) (origin : Origin) :
    preservesCore a
      { a with symbols := (f.convert a.symbols).2,
               world := a.world.insertFact origin (f.convert a.symbols).1 } := by
  refine ⟨rfl, rfl, ?_, rfl, ?_⟩
  · show ((f.name :: f.terms).foldl SymbolTable.insertString a.symbols).public_keys =
      a.symbols.public_keys
    exact foldl_insertString_public_keys _ a.symbols
  · intro s hs
    show s ∈ ((f.name :: f.terms).foldl SymbolTable.insertString a.symbols).strings
    exact (mem_foldl_insertString _ a.symbols s).mpr (Or.inl hs)

/-- The inner fact loop preserves the core fields. -/
theorem factsInnerLoop_preservesCore (ts : SymbolTable) (origin : Origin) :
    ∀ (pfs : List ProtoFact) (a a₂ : Authorizer),
    factsInnerLoop ts origin a pfs = .ok a₂ → preservesCore a a₂ := by
  intro pfs
  induction pfs with
  | nil =>
    intro a a₂ h
    simp only [factsInnerLoop, Except.ok.injEq] at h
    subst h
    exact preservesCore_refl a
  | cons pf pfs ih =>
    intro a a₂ h
    simp only [factsInnerLoop] at h
    dsimp only [proto_fact_to_token_fact, Fact.convert_from] at h
    exact preservesCore_trans (convert_preservesCore a _ origin) (ih _ a₂ h)

/-- The outer fact loop preserves the core fields. -/
theorem factsLoop_preservesCore (ts : SymbolTable) :
    ∀ (gfs : List GeneratedFacts) (a a₂ : Authorizer),
    factsLoop ts a gfs = .ok a₂ → preservesCore a a₂ := by
  intro gfs
  induction gfs with
  | nil =>
    intro a a₂ h
    simp only [factsLoop, Except.ok.injEq] at h
    subst h
    exact preservesCore_refl a
  | cons gf gfs ih =>
    intro a a₂ h
    simp only [factsLoop] at h
    cases ho : proto_origin_to_authorizer_origin gf.origins with
    | error e => rw [ho] at h; cases h
    | ok origin =>
      rw [ho] at h
      dsimp only at h
      cases hi : factsInnerLoop ts origin a gf.facts with
      | error e => rw [hi] at h; cases h
      | ok a₃ =>
        rw [hi] at h
        exact preservesCore_trans (factsInnerLoop_preservesCore ts origin _ a a₃ hi)
          (ih a₃ a₂ h)

/-- Inversion of a successful from_snapshot run into its stages: the key
maps processed, the token symbol table built by the block loop, and the
fact loop run from a staged authorizer whose symbol table is the one the
key-map stage produced. -/
theorem from_snapshot_ok_inv (input : AuthorizerSnapshot) (a₂ : Authorizer)
    (h : from_snapshot input = .ok a₂) :
    ∃ ek pk sy₂ a₃,
      processKeyMaps input.public_key_map
        (input.symbols.foldl SymbolTable.insertString default_symbol_table) [] [] =
        .ok (ek, pk, sy₂) ∧
      a₃.symbols = sy₂ ∧
      factsLoop (tokenSymbolsLoop ek input.blocks.enum default_symbol_table)
        a₃ input.generated_facts = .ok a₂ := by
  unfold from_snapshot at h
  split at h
  case isFalse => cases h
  case isTrue hv =>
    unfold from_snapshot_body at h
    cases hk : processKeyMaps input.public_key_map
        (input.symbols.foldl SymbolTable.insertString default_symbol_table) [] [] with
    | error e => rw [hk] at h; cases h
    | ok r =>
      obtain ⟨ek, pk, sy₂⟩ := r
      rw [hk] at h
      dsimp only at h
      cases hab : proto_block_to_token_block input.authorizer_block none with
      | error e => rw [hab] at h; cases h
      | ok ab =>
        rw [hab] at h
        dsimp only [BlockBuilder.convert_from] at h
        cases hpol : input.policies.mapM
            (fun p => proto_policy_to_policy p sy₂ (input.version.getD 0)) with
        | error e => rw [hpol] at h; cases h
        | ok policies =>
          rw [hpol] at h
          dsimp only at h
          cases hbl : blocksLoop ek
              { Authorizer.new with
                symbols := sy₂
                authorizer_block_builder := ⟨ab.symbols, ab.public_keys, ab.payload⟩
                policies := policies
                public_key_to_block_id := pk }
              input.blocks.enum default_symbol_table [] with
          | error e => rw [hbl] at h; cases h
          | ok r₂ =>
            obtain ⟨a₄, ts, blocks⟩ := r₂
            rw [hbl] at h
            dsimp only at h
            obtain ⟨ha₄, hts⟩ := blocksLoop_ok_inv ek input.blocks.enum _ _ _ _ hbl
            dsimp at ha₄ hts
            subst hts
            refine ⟨ek, pk, sy₂, _, rfl, ?_, h⟩
            by_cases hb : blocks.isEmpty
            · rw [if_pos hb]
              rw [ha₄]
            · rw [if_neg hb]
              show a₄.symbols = sy₂
              rw [ha₄]


/-! ## Snapshot inversion -/

/-- The policy fold of snapshot appends the rendered policies and leaves
the symbol table unchanged. -/
theorem policiesFold_foldl (ps : List Policy) :
    ∀ (acc : List ProtoPolicy) (t : SymbolTable),
    (ps.foldl (fun acc p =>
      let r := policy_to_proto_policy p acc.2
      (acc.1 ++ [r.1], r.2)) (acc, t)) =
      (acc ++ ps.map (fun p => (⟨p.content⟩ : ProtoPolicy)), t) := by
  induction ps with
  | nil => intro acc t; simp
  | cons p ps ih =>
    intro acc t
    have h2 := ih (acc ++ [⟨p.content⟩]) t
    rw [List.foldl_cons]
    dsimp only [policy_to_proto_policy] at h2 ⊢
    rw [h2]
    simp

/-- policiesFold in closed form. -/
theorem policiesFold_eq (ps : List Policy) (t : SymbolTable) :
    policiesFold ps t = (ps.map (fun p => (⟨p.content⟩ : ProtoPolicy)), t) := by
  unfold policiesFold
  rw [policiesFold_foldl]
  simp

/-- Inversion of a successful snapshot: the emitted record in closed form. -/
theorem snapshot_ok_inv (a : Authorizer) (input : AuthorizerSnapshot)
    (h : snapshot a = .ok input) :
    ∃ km, publicKeyMapLoop a.public_key_to_block_id a.symbols.public_keys =
        .ok km ∧
      input = ⟨some MAX_SCHEMA_VERSION,
        a.authorizer_block_builder.symbols,
        (a.blocks.getD []).map token_block_to_proto_block,
        token_block_to_proto_block
          (a.authorizer_block_builder.build default_symbol_table),
        a.world.inner.map (fun q =>
          GeneratedFacts.mk (authorizer_origin_to_proto_origin q.1)
            (q.2.map token_fact_to_proto_fact)),
        a.policies.map (fun p => ⟨p.content⟩),
        km⟩ := by
  unfold snapshot at h
  cases hm : publicKeyMapLoop a.public_key_to_block_id a.symbols.public_keys with
  | error e => rw [hm] at h; simp at h
  | ok km =>
    rw [hm] at h
    simp only [policiesFold_eq, Except.ok.injEq] at h
    refine ⟨km, rfl, ?_⟩
    rw [← h]
    rfl

/-! ## Symbol absorption during from_snapshot (claim C7) -/

/-- Membership in the external block-id union. -/
theorem mem_externalBlockIds (input : AuthorizerSnapshot) (i : Nat) :
    i ∈ externalBlockIds input ↔
      ∃ km ∈ input.public_key_map, i ∈ km.block_ids := by
  unfold externalBlockIds
  rw [List.mem_flatten]
  constructor
  · rintro ⟨l, hl, hil⟩
    obtain ⟨km, hkm, rfl⟩ := List.mem_map.mp hl
    exact ⟨km, hkm, hil⟩
  · rintro ⟨km, hkm, hil⟩
    exact ⟨km.block_ids, List.mem_map.mpr ⟨km, hkm, rfl⟩, hil⟩

/-- C7: during from_snapshot, a block's declared symbols are absorbed into
the shared first-party token symbol table exactly when the block's index
does not appear in the external-key-index→block-ids map — that table
contains precisely the symbols of the non-externally-keyed blocks, so
third-party-signed blocks never contribute to it; and when the input is
the snapshot of a live authorizer, the authorizer's own pending block's
symbols are all absorbed into the restored authorizer's symbol table. -/
theorem from_snapshot_symbol_absorption (input : AuthorizerSnapshot)
    (a₂ : Authorizer) (h : from_snapshot input = .ok a₂) :
    (∀ s, s ∈ (tokenSymbolsOf input).strings ↔
      ∃ i b, input.blocks[i]? = some b ∧ i ∉ externalBlockIds input ∧
        s ∈ b.symbols) ∧
    (∀ a, snapshot a = .ok input →
      ∀ s ∈ a.authorizer_block_builder.symbols, s ∈ a₂.symbols.strings) := by
  obtain ⟨ek, pk, sy₂, a₃, hk, ha₃, hf⟩ := from_snapshot_ok_inv input a₂ h
  have htso : tokenSymbolsOf input =
      tokenSymbolsLoop ek input.blocks.enum default_symbol_table := by
    unfold tokenSymbolsOf
    rw [hk]
  constructor
  · intro s
    rw [htso, mem_tokenSymbolsLoop]
    have hbase : s ∉ default_symbol_table.strings := by simp [default_symbol_table]
    constructor
    · rintro (hs | ⟨p, hp, hnone, hsym⟩)
      · exact absurd hs hbase
      · refine ⟨p.1, p.2, List.mem_enum_iff_getElem?.mp hp, ?_, hsym⟩
        intro hmem
        obtain ⟨km, hkm, hin⟩ := (mem_externalBlockIds input p.1).mp hmem
        have := (processKeyMaps_lookup_none input.public_key_map _ [] []
          (ek, pk, sy₂) hk p.1).mp hnone
        exact this.2 km hkm hin
    · rintro ⟨i, b, hib, hnotin, hsym⟩
      refine Or.inr ⟨(i, b), List.mem_enum_iff_getElem?.mpr hib, ?_, hsym⟩
      rw [processKeyMaps_lookup_none input.public_key_map _ [] []
        (ek, pk, sy₂) hk i]
      refine ⟨rfl, ?_⟩
      intro km hkm hin
      exact hnotin ((mem_externalBlockIds input i).mpr ⟨km, hkm, hin⟩)
  · intro a hsnap s hs
    obtain ⟨km, _, hinput⟩ := snapshot_ok_inv a input hsnap
    have hsyms : input.symbols = a.authorizer_block_builder.symbols := by
      rw [hinput]
    have h0 : s ∈ (input.symbols.foldl SymbolTable.insertString
        default_symbol_table).strings := by
      rw [mem_foldl_insertString, hsyms]
      exact Or.inr hs
    have hsy₂ : s ∈ sy₂.strings := by
      have := processKeyMaps_strings input.public_key_map _ [] []
        (ek, pk, sy₂) hk
      dsimp at this
      rw [this]
      exact h0
    have hcore := factsLoop_preservesCore _ input.generated_facts a₃ a₂ hf
    exact hcore.2.2.2.2 s (by rw [ha₃]; exact hsy₂)

/-- Witness for C7 at the concrete sample snapshot: the restore succeeds and
the absorbed-symbol characterization holds there. -/
theorem from_snapshot_symbol_absorption_witness :
    from_snapshot cexSnapshot = .ok cexRestored ∧
    ((∀ s, s ∈ (tokenSymbolsOf cexSnapshot).strings ↔
      ∃ i b, cexSnapshot.blocks[i]? = some b ∧
        i ∉ externalBlockIds cexSnapshot ∧ s ∈ b.symbols) ∧
    (∀ a, snapshot a = .ok cexSnapshot →
      ∀ s ∈ a.authorizer_block_builder.symbols,
        s ∈ cexRestored.symbols.strings)) :=
  ⟨by decide, from_snapshot_symbol_absorption cexSnapshot cexRestored (by decide)⟩


/-! ## Round-trip building blocks (claim C1) -/

/-- from_proto inverts to_proto for a canonical 32-byte ed25519 key. -/
theorem from_proto_to_proto (k : Ed25519.PublicKey)
    (h : k.bytes.length = 32) :
    Ed25519.PublicKey.from_proto k.to_proto = .ok k := by
  unfold Ed25519.PublicKey.from_proto Ed25519.PublicKey.to_proto
    Ed25519.PublicKey.from_bytes Ed25519.PublicKey.to_bytes
  simp [h]

/-- mapM of from_proto over encoded keys recovers the keys. -/
theorem mapM_from_proto_to_proto (ks : List Ed25519.PublicKey)
    (h : ∀ k ∈ ks, k.bytes.length = 32) :
    (ks.map Ed25519.PublicKey.to_proto).mapM Ed25519.PublicKey.from_proto =
      .ok ks := by
  induction ks with
  | nil => rfl
  | cons k ks ih =>
    rw [List.map_cons, List.mapM_cons,
      from_proto_to_proto k (h k (List.mem_cons_self _ _)),
      ih (fun q hq => h q (List.mem_cons_of_mem _ hq))]
    rfl

/-- Inserting a greater element into an ascending list appends it. -/
theorem insertSorted_of_gt (x : Nat) :
    ∀ (l : List Nat), (∀ y ∈ l, y < x) → insertSorted x l = l ++ [x] := by
  intro l
  induction l with
  | nil => intro _; rfl
  | cons y rest ih =>
    intro h
    have hy : y < x := h y (List.mem_cons_self _ _)
    have h1 : ¬ x < y := by omega
    have h2 : ¬ x = y := by omega
    simp only [insertSorted, if_neg h1, if_neg h2, List.cons_append]
    rw [ih (fun z hz => h z (List.mem_cons_of_mem _ hz))]

/-- Replaying the encoded elements of a canonical origin into an
accumulator extends its element list. -/
theorem protoOriginLoop_replay :
    ∀ (l : List Nat) (acc : Origin),
    (∀ x ∈ l, x = usizeMax ∨ x < 2 ^ 32) →
    List.Pairwise (· < ·) (acc.inner ++ l) →
    protoOriginLoop acc (l.map (fun o =>
      if o = usizeMax then (⟨some (.authorizer true)⟩ : ProtoOrigin)
      else ⟨some (.origin (o % 2 ^ 32))⟩)) = .ok ⟨acc.inner ++ l⟩ := by
  intro l
  induction l with
  | nil => intro acc _ _; simp [protoOriginLoop]
  | cons x rest ih =>
    intro acc hb hp
    have hacc : ∀ y ∈ acc.inner, y < x := by
      intro y hy
      have := (List.pairwise_append.mp hp).2.2
      exact this y hy x (List.mem_cons_self _ _)
    have hins : acc.insertIdx x = ⟨acc.inner ++ [x]⟩ := by
      unfold Origin.insertIdx
      rw [insertSorted_of_gt x acc.inner hacc]
    have hp₂ : List.Pairwise (· < ·) ((acc.inner ++ [x]) ++ rest) := by
      rw [List.append_assoc]
      exact hp
    have hrest : ∀ y ∈ rest, y = usizeMax ∨ y < 2 ^ 32 :=
      fun y hy => hb y (List.mem_cons_of_mem _ hy)
    rcases hb x (List.mem_cons_self _ _) with hx | hx
    · subst hx
      rw [List.map_cons, if_pos rfl]
      show protoOriginLoop (acc.insertIdx usizeMax) _ = _
      rw [hins, ih ⟨acc.inner ++ [usizeMax]⟩ hrest hp₂]
      simp
    · have hxne : x ≠ usizeMax := by
        unfold usizeMax
        omega
      rw [List.map_cons, if_neg hxne]
      show protoOriginLoop (acc.insertIdx (x % 2 ^ 32)) _ = _
      rw [Nat.mod_eq_of_lt hx, hins, ih ⟨acc.inner ++ [x]⟩ hrest hp₂]
      simp

/-- Round trip of a canonical origin through its wire encoding. -/
theorem origin_roundtrip (o : Origin)
    (hb : ∀ x ∈ o.inner, x = usizeMax ∨ x < 2 ^ 32)
    (hs : List.Pairwise (· < ·) o.inner) :
    proto_origin_to_authorizer_origin (authorizer_origin_to_proto_origin o) =
      .ok o := by
  unfold proto_origin_to_authorizer_origin authorizer_origin_to_proto_origin
  have := protoOriginLoop_replay o.inner Origin.default hb
    (by simpa [Origin.default] using hs)
  simpa [Origin.default] using this

/-- publicKeyMapLoop in closed form when every index resolves. -/
theorem publicKeyMapLoop_eq :
    ∀ (m : List (Nat × List Nat)) (table : PublicKeys),
    (∀ p ∈ m, ∃ k, table.get_key p.1 = some k) →
    publicKeyMapLoop m table =
      .ok (m.filterMap (fun p => (table.get_key p.1).map
        (fun k => KeyMap.mk k.to_proto (p.2.map (· % 2 ^ 32))))) := by
  intro m
  induction m with
  | nil => intro table _; rfl
  | cons p m ih =>
    intro table h
    obtain ⟨k, hk⟩ := h p (List.mem_cons_self _ _)
    obtain ⟨i, ids⟩ := p
    simp only [publicKeyMapLoop]
    dsimp at hk
    rw [hk, ih table (fun q hq => h q (List.mem_cons_of_mem _ hq))]
    simp [hk]

/-- The emitted key map is the key association rendered to wire form, its
block ids cast to u32. -/
theorem keyMap_filterMap (a : Authorizer) :
    a.public_key_to_block_id.filterMap (fun p =>
      (a.symbols.public_keys.get_key p.1).map
        (fun k => KeyMap.mk k.to_proto (p.2.map (· % 2 ^ 32)))) =
    a.keyAssoc.map (fun q => KeyMap.mk q.1.to_proto (q.2.map (· % 2 ^ 32))) := by
  unfold Authorizer.keyAssoc
  induction a.public_key_to_block_id with
  | nil => rfl
  | cons p m ih =>
    cases hk : a.symbols.public_keys.get_key p.1 with
    | none =>
      simp only [List.filterMap_cons, hk, Option.map_none']
      exact ih
    | some k =>
      simp only [List.filterMap_cons, hk, Option.map_some', List.map_cons]
      rw [ih]

/-- Insertion of a fresh key appends it and returns the previous length. -/
theorem insert_fresh (t : PublicKeys) (k : Ed25519.PublicKey)
    (h : k ∉ t.keys) :
    t.insert k = (t.keys.length, ⟨t.keys ++ [k]⟩) := by
  unfold PublicKeys.insert
  rw [(position_eq_none_iff k t.keys).mpr h]

/-- Inserting an unbound index into an association list appends it. -/
theorem assocInsert_append {α : Type} (i : Nat) (v : α) :
    ∀ (m : List (Nat × α)), (∀ p ∈ m, p.1 ≠ i) →
    assocInsert m i v = m ++ [(i, v)] := by
  intro m
  induction m with
  | nil => intro _; rfl
  | cons p m ih =>
    intro h
    have hp : ¬ p.1 = i := h p (List.mem_cons_self _ _)
    simp only [assocInsert, if_neg hp, List.cons_append]
    rw [ih (fun q hq => h q (List.mem_cons_of_mem _ hq))]

/-- The element at the junction of an append. -/
theorem getElem?_middle {α : Type} (l₁ : List α) (x : α) (l₂ : List α) :
    (l₁ ++ x :: l₂)[l₁.length]? = some x := by
  rw [List.getElem?_append_right (Nat.le_refl _)]
  simp

/-- processKeyMaps over the wire rendering of a fresh, duplicate-free key
association: it succeeds, leaves the strings unchanged, interns exactly the
listed keys in order, and its key-index→block-ids map resolves (through the
final table) to the original association. -/
theorem processKeyMaps_fresh :
    ∀ (assoc : List (Ed25519.PublicKey × List Nat)) (sy : SymbolTable)
      (ek0 : List (Nat × Ed25519.PublicKey)) (pk0 : List (Nat × List Nat)),
    (∀ q ∈ assoc, q.1.bytes.length = 32) →
    (sy.public_keys.keys ++ assoc.map Prod.fst).Nodup →
    (∀ p ∈ pk0, p.1 < sy.public_keys.current_offset) →
    ∃ ek pk sy₂,
      processKeyMaps (assoc.map (fun q => KeyMap.mk q.1.to_proto q.2))
        sy ek0 pk0 = .ok (ek, pk, sy₂) ∧
      sy₂.strings = sy.strings ∧
      sy₂.public_keys.keys = sy.public_keys.keys ++ assoc.map Prod.fst ∧
      (∀ p ∈ pk, p.1 < sy₂.public_keys.current_offset) ∧
      pk.filterMap (fun p => (sy₂.public_keys.get_key p.1).map
          (fun k => (k, p.2))) =
        pk0.filterMap (fun p => (sy₂.public_keys.get_key p.1).map
          (fun k => (k, p.2))) ++ assoc := by
  intro assoc
  induction assoc with
  | nil =>
    intro sy ek0 pk0 _ _ hb
    exact ⟨ek0, pk0, sy, rfl, rfl, by simp, hb, by simp⟩
  | cons q assoc ih =>
    intro sy ek0 pk0 hlen hnd hb
    simp only [PublicKeys.current_offset] at hb
    have hq32 : q.1.bytes.length = 32 := hlen q (List.mem_cons_self _ _)
    have hfresh : q.1 ∉ sy.public_keys.keys := by
      intro hmem
      have := (List.nodup_append.mp hnd).2.2
      exact this hmem (by simp)
    have hins := insert_fresh sy.public_keys q.1 hfresh
    have hnd₂ : ((sy.public_keys.keys ++ [q.1]) ++ assoc.map Prod.fst).Nodup := by
      rw [List.append_assoc]
      simpa using hnd
    have hb₂ : ∀ p ∈ assocInsert pk0 sy.public_keys.keys.length q.2,
        p.1 < (sy.public_keys.keys ++ [q.1]).length := by
      rw [assocInsert_append _ _ pk0
        (fun p hp => Nat.ne_of_lt (hb p hp))]
      intro p hp
      rcases List.mem_append.mp hp with hp | hp
      · simp only [List.length_append, List.length_singleton]
        exact Nat.lt_succ_of_lt (hb p hp)
      · simp only [List.mem_singleton] at hp
        subst hp
        simp
    obtain ⟨ek, pk, sy₂, hrun, hstr, hkeys, hbound, hmap⟩ :=
      ih ⟨sy.strings, ⟨sy.public_keys.keys ++ [q.1]⟩⟩
        (q.2.foldl (fun m i => assocInsert m i q.1) ek0)
        (assocInsert pk0 sy.public_keys.keys.length q.2)
        (fun p hp => hlen p (List.mem_cons_of_mem _ hp))
        hnd₂ hb₂
    refine ⟨ek, pk, sy₂, ?_, hstr, ?_, hbound, ?_⟩
    · rw [List.map_cons]
      simp only [processKeyMaps]
      rw [from_proto_to_proto q.1 hq32]
      dsimp only
      rw [hins]
      exact hrun
    · rw [hkeys]
      simp
    · rw [hmap, assocInsert_append _ _ pk0
        (fun p hp => Nat.ne_of_lt (hb p hp))]
      rw [List.filterMap_append]
      have hget : sy₂.public_keys.get_key sy.public_keys.keys.length =
          some q.1 := by
        unfold PublicKeys.get_key
        rw [hkeys]
        dsimp only
        have : sy.public_keys.keys ++ [q.1] ++ assoc.map Prod.fst =
            sy.public_keys.keys ++ q.1 :: assoc.map Prod.fst := by simp
        rw [this]
        exact getElem?_middle _ _ _
      simp [hget]


/-- Inserting a fact under an origin absent from the store appends a new
record. -/
theorem factStoreInsert_absent (origin : Origin) (f : Fact) :
    ∀ (l : List (Origin × List Fact)), origin ∉ l.map Prod.fst →
    factStoreInsert l origin f = l ++ [(origin, [f])] := by
  intro l
  induction l with
  | nil => intro _; rfl
  | cons p l ih =>
    intro h
    have hne : ¬ p.1 = origin := by
      intro hh
      exact h (by simp [← hh])
    obtain ⟨o₂, fs⟩ := p
    simp only [factStoreInsert, if_neg hne, List.cons_append]
    rw [ih (fun hh => h (List.mem_cons_of_mem _ hh))]

/-- Inserting a fact under the origin of the store's last record extends
that record's fact set. -/
theorem factStoreInsert_last (origin : Origin) (f : Fact) (acc : List Fact) :
    ∀ (w : List (Origin × List Fact)), origin ∉ w.map Prod.fst →
    factStoreInsert (w ++ [(origin, acc)]) origin f =
      w ++ [(origin, if f ∈ acc then acc else acc ++ [f])] := by
  intro w
  induction w with
  | nil => intro _; simp [factStoreInsert]
  | cons p w ih =>
    intro h
    have hne : ¬ p.1 = origin := by
      intro hh
      exact h (by simp [← hh])
    obtain ⟨o₂, fs⟩ := p
    simp only [List.cons_append, factStoreInsert, if_neg hne, List.append_eq]
    rw [ih (fun hh => h (List.mem_cons_of_mem _ hh))]

/-- Replaying new facts into the last record of the store appends them in
order. -/
theorem factsInnerLoop_go (ts : SymbolTable) (origin : Origin) :
    ∀ (fs : List Fact) (a : Authorizer) (w : List (Origin × List Fact))
      (acc : List Fact),
    a.world.inner = w ++ [(origin, acc)] →
    origin ∉ w.map Prod.fst →
    (∀ f ∈ fs, f ∉ acc) → fs.Nodup →
    ∃ a₂, factsInnerLoop ts origin a (fs.map token_fact_to_proto_fact) =
        .ok a₂ ∧
      a₂.world.inner = w ++ [(origin, acc ++ fs)] := by
  intro fs
  induction fs with
  | nil =>
    intro a w acc hworld _ _ _
    refine ⟨a, rfl, ?_⟩
    rw [hworld]
    simp
  | cons f fs ih =>
    intro a w acc hworld hnotin hfresh hnd
    have hfa : f ∉ acc := hfresh f (List.mem_cons_self _ _)
    have hworld₂ :
        (FactStore.insertFact a.world origin f).inner =
          w ++ [(origin, acc ++ [f])] := by
      unfold FactStore.insertFact
      rw [hworld, factStoreInsert_last origin f acc w hnotin, if_neg hfa]
    have hfresh₂ : ∀ g ∈ fs, g ∉ acc ++ [f] := by
      intro g hg hmem
      rcases List.mem_append.mp hmem with hm | hm
      · exact hfresh g (List.mem_cons_of_mem _ hg) hm
      · simp only [List.mem_singleton] at hm
        subst hm
        exact (List.nodup_cons.mp hnd).1 hg
    obtain ⟨a₂, hrun, hw₂⟩ := ih
      { a with symbols := ((⟨f.name, f.terms⟩ : Fact).convert a.symbols).2,
               world := a.world.insertFact origin f }
      w (acc ++ [f]) hworld₂ hnotin hfresh₂ (List.nodup_cons.mp hnd).2
    refine ⟨a₂, ?_, ?_⟩
    · rw [List.map_cons]
      show factsInnerLoop ts origin a
        (token_fact_to_proto_fact f :: fs.map token_fact_to_proto_fact) = _
      simp only [factsInnerLoop]
      dsimp only [proto_fact_to_token_fact, Fact.convert_from,
        token_fact_to_proto_fact]
      exact hrun
    · rw [hw₂, List.append_assoc]
      simp

/-- Replaying a fresh origin's fact list appends one record. -/
theorem factsInnerLoop_fresh (ts : SymbolTable) (origin : Origin)
    (fs : List Fact) (a : Authorizer)
    (hnotin : origin ∉ a.world.inner.map Prod.fst)
    (hnd : fs.Nodup) (hne : fs ≠ []) :
    ∃ a₂, factsInnerLoop ts origin a (fs.map token_fact_to_proto_fact) =
        .ok a₂ ∧
      a₂.world.inner = a.world.inner ++ [(origin, fs)] := by
  cases fs with
  | nil => exact absurd rfl hne
  | cons f fs =>
    have hworld₂ :
        (FactStore.insertFact a.world origin f).inner =
          a.world.inner ++ [(origin, [f])] := by
      unfold FactStore.insertFact
      rw [factStoreInsert_absent origin f a.world.inner hnotin]
    have hfresh₂ : ∀ g ∈ fs, g ∉ [f] := by
      intro g hg hmem
      simp only [List.mem_singleton] at hmem
      subst hmem
      exact (List.nodup_cons.mp hnd).1 hg
    obtain ⟨a₂, hrun, hw₂⟩ := factsInnerLoop_go ts origin fs
      { a with symbols := ((⟨f.name, f.terms⟩ : Fact).convert a.symbols).2,
               world := a.world.insertFact origin f }
      a.world.inner [f] hworld₂ hnotin hfresh₂ (List.nodup_cons.mp hnd).2
    refine ⟨a₂, ?_, by simpa using hw₂⟩
    rw [List.map_cons]
    show factsInnerLoop ts origin a
      (token_fact_to_proto_fact f :: fs.map token_fact_to_proto_fact) = _
    simp only [factsInnerLoop]
    dsimp only [proto_fact_to_token_fact, Fact.convert_from,
      token_fact_to_proto_fact]
    exact hrun

/-- Replaying the snapshot's generated-facts records rebuilds the store. -/
theorem factsLoop_replay (ts : SymbolTable) :
    ∀ (entries : List (Origin × List Fact)) (a : Authorizer),
    (∀ q ∈ entries, (∀ x ∈ q.1.inner, x = usizeMax ∨ x < 2 ^ 32) ∧
      List.Pairwise (· < ·) q.1.inner ∧ q.2.Nodup ∧ q.2 ≠ []) →
    (a.world.inner.map Prod.fst ++ entries.map Prod.fst).Nodup →
    ∃ a₂, factsLoop ts a (entries.map (fun q =>
        GeneratedFacts.mk (authorizer_origin_to_proto_origin q.1)
          (q.2.map token_fact_to_proto_fact))) = .ok a₂ ∧
      a₂.world.inner = a.world.inner ++ entries ∧ preservesCore a a₂ := by
  intro entries
  induction entries with
  | nil =>
    intro a _ _
    exact ⟨a, rfl, by simp, preservesCore_refl a⟩
  | cons q entries ih =>
    intro a hq hnd
    obtain ⟨origin, fs⟩ := q
    obtain ⟨hob, hop, hfnd, hfne⟩ := hq (origin, fs) (List.mem_cons_self _ _)
    have hdec := origin_roundtrip origin hob hop
    have hnotin : origin ∉ a.world.inner.map Prod.fst := by
      have := (List.nodup_append.mp hnd).2.2
      intro hmem
      exact this hmem (by simp)
    obtain ⟨a₁, hinner, hw₁⟩ :=
      factsInnerLoop_fresh ts origin fs a hnotin hfnd hfne
    have hnd₂ : (a₁.world.inner.map Prod.fst ++ entries.map Prod.fst).Nodup := by
      rw [hw₁]
      simp only [List.map_append, List.map_cons]
      simpa [List.append_assoc] using hnd
    obtain ⟨a₂, hrun, hw₂, hcore⟩ := ih a₁
      (fun p hp => hq p (List.mem_cons_of_mem _ hp)) hnd₂
    refine ⟨a₂, ?_, ?_, ?_⟩
    · rw [List.map_cons]
      show factsLoop ts a (GeneratedFacts.mk
        (authorizer_origin_to_proto_origin origin)
        (fs.map token_fact_to_proto_fact) :: _) = _
      simp only [factsLoop]
      rw [hdec]
      dsimp only
      rw [hinner]
      dsimp only
      exact hrun
    · rw [hw₂, hw₁, List.append_assoc]
      simp
    · exact preservesCore_trans
        (factsInnerLoop_preservesCore ts origin _ a a₁ hinner) hcore


/-- The keys of the key association are the resolvable map indices. -/
theorem keyAssoc_map_fst (a : Authorizer) :
    a.keyAssoc.map Prod.fst =
      a.public_key_to_block_id.filterMap
        (fun p => a.symbols.public_keys.get_key p.1) := by
  unfold Authorizer.keyAssoc
  induction a.public_key_to_block_id with
  | nil => rfl
  | cons p m ih =>
    cases hk : a.symbols.public_keys.get_key p.1 with
    | none => simp [List.filterMap_cons, hk, ih]
    | some k => simp [List.filterMap_cons, hk, ih]

/-- Decoding wire policies always succeeds with the carried content. -/
theorem mapM_proto_policy (pps : List ProtoPolicy) (sy : SymbolTable)
    (v : Nat) :
    pps.mapM (fun p => proto_policy_to_policy p sy v) =
      .ok (pps.map (fun pp => (⟨pp.content⟩ : Policy))) := by
  induction pps with
  | nil => rfl
  | cons pp pps ih =>
    rw [List.mapM_cons, ih]
    rfl

/-- Policies survive the encode/decode pair. -/
theorem policies_roundtrip (ps : List Policy) :
    (ps.map (fun p => (⟨p.content⟩ : ProtoPolicy))).map
      (fun pp => (⟨pp.content⟩ : Policy)) = ps := by
  induction ps with
  | nil => rfl
  | cons p ps ih =>
    simp only [List.map_cons, ih]

/-- C1 (amended): for every well-formed authorizer state, restoring its
snapshot succeeds and preserves all semantic content — the origin-tagged
fact store, the policies, and the association between each external public
key and its block ids (the key-table indices themselves may be renumbered,
consistently with the restored interning table). -/
theorem roundTrip_preserves_semantics (a : Authorizer) (hwf : a.wfB = true) :
    ∃ a₂, roundTrip a = .ok a₂ ∧
      a₂.world = a.world ∧
      a₂.policies = a.policies ∧
      a₂.keyAssoc = a.keyAssoc := by
  simp only [Authorizer.wfB, Bool.and_eq_true, List.all_eq_true,
    decide_eq_true_eq] at hwf
  obtain ⟨⟨⟨⟨⟨⟨hk1, hk2⟩, hkIds⟩, hk3⟩, hk4⟩, hw5⟩, hw6⟩ := hwf
  have hres : ∀ p ∈ a.public_key_to_block_id, ∃ k,
      a.symbols.public_keys.get_key p.1 = some k ∧ k.bytes.length = 32 := by
    intro p hp
    have h1 := hk1 p hp
    cases hgk : a.symbols.public_keys.get_key p.1 with
    | none => rw [hgk] at h1; cases h1
    | some k =>
      rw [hgk] at h1
      exact ⟨k, rfl, of_decide_eq_true h1⟩
  have hkmLoop := publicKeyMapLoop_eq a.public_key_to_block_id
    a.symbols.public_keys
    (fun p hp => ⟨(hres p hp).choose, (hres p hp).choose_spec.1⟩)
  have hsnap : ∃ s, snapshot a = .ok s := by
    unfold snapshot
    rw [hkmLoop]
    exact ⟨_, rfl⟩
  obtain ⟨s, hs⟩ := hsnap
  obtain ⟨km, hkm2, hseq⟩ := snapshot_ok_inv a s hs
  have hids : ∀ q ∈ a.keyAssoc, q.2.map (· % 2 ^ 32) = q.2 := by
    intro q hq
    obtain ⟨p, hp, hmap⟩ := List.mem_filterMap.mp hq
    obtain ⟨k, hgk, _⟩ := hres p hp
    rw [hgk] at hmap
    simp only [Option.map_some', Option.some.injEq] at hmap
    have hlt := hkIds p hp
    rw [← hmap]
    show p.2.map (· % 2 ^ 32) = p.2
    calc p.2.map (· % 2 ^ 32) = p.2.map id :=
        List.map_congr_left (fun i hi => Nat.mod_eq_of_lt (hlt i hi))
    _ = p.2 := List.map_id p.2
  have hkmval : km = a.keyAssoc.map (fun q => KeyMap.mk q.1.to_proto q.2) := by
    rw [hkmLoop] at hkm2
    have hinj := Except.ok.inj hkm2
    rw [← hinj, keyMap_filterMap]
    exact List.map_congr_left (fun q hq => by rw [hids q hq])
  have hka32 : ∀ q ∈ a.keyAssoc, q.1.bytes.length = 32 := by
    intro q hq
    obtain ⟨p, hp, hmap⟩ := List.mem_filterMap.mp hq
    obtain ⟨k, hgk, hlen⟩ := hres p hp
    rw [hgk] at hmap
    simp only [Option.map_some', Option.some.injEq] at hmap
    rw [← hmap]
    exact hlen
  have hpk0 : ((a.authorizer_block_builder.symbols).foldl
      SymbolTable.insertString default_symbol_table).public_keys =
      PublicKeys.new :=
    foldl_insertString_public_keys _ _
  have hkaNodup : (((a.authorizer_block_builder.symbols).foldl
      SymbolTable.insertString default_symbol_table).public_keys.keys ++
      a.keyAssoc.map Prod.fst).Nodup := by
    rw [hpk0]
    show (([] : List Ed25519.PublicKey) ++ a.keyAssoc.map Prod.fst).Nodup
    rw [List.nil_append, keyAssoc_map_fst]
    exact hk2
  obtain ⟨ek, pk, sy₂, hrunPK, hstr, hkeys, hbound, hmapPK⟩ :=
    processKeyMaps_fresh a.keyAssoc
      ((a.authorizer_block_builder.symbols).foldl
        SymbolTable.insertString default_symbol_table)
      [] [] hka32 hkaNodup (by intro p hp; cases hp)
  rw [List.filterMap_nil, List.nil_append] at hmapPK
  have hab : proto_block_to_token_block
      (token_block_to_proto_block
        (a.authorizer_block_builder.build default_symbol_table)) none =
      .ok (a.authorizer_block_builder.build default_symbol_table) := by
    unfold proto_block_to_token_block token_block_to_proto_block
    dsimp only [BlockBuilder.build]
    rw [mapM_from_proto_to_proto _ hk3]
    rfl
  have hblocksKeys : ∀ p ∈ ((a.blocks.getD []).map
      token_block_to_proto_block).enum, ∀ pk2 ∈ p.2.publicKeys,
      ∃ k, Ed25519.PublicKey.from_proto pk2 = .ok k := by
    intro p hp pk2 hpk2
    have hp2 : p.2 ∈ (a.blocks.getD []).map token_block_to_proto_block := by
      obtain ⟨hlt, hEq⟩ :=
        List.getElem?_eq_some.mp (List.mem_enum_iff_getElem?.mp hp)
      rw [← hEq]
      exact List.getElem_mem hlt
    obtain ⟨b, hb, hbe⟩ := List.mem_map.mp hp2
    rw [← hbe] at hpk2
    obtain ⟨k, hkmem, hke⟩ := List.mem_map.mp hpk2
    rw [← hke]
    exact ⟨k, from_proto_to_proto k (hk4 b hb k hkmem)⟩
  obtain ⟨ts₂, bs₂, hblRun⟩ := blocksLoop_ok_of ek
    (((a.blocks.getD []).map token_block_to_proto_block).enum)
    ⟨sy₂, ⟨(a.authorizer_block_builder.build default_symbol_table).symbols,
      (a.authorizer_block_builder.build default_symbol_table).public_keys,
      (a.authorizer_block_builder.build default_symbol_table).payload⟩,
      a.policies, pk, none, TrustedOrigins.default, ⟨[]⟩⟩
    default_symbol_table [] hblocksKeys
  have hentries : ∀ q ∈ a.world.inner,
      (∀ x ∈ q.1.inner, x = usizeMax ∨ x < 2 ^ 32) ∧
      List.Pairwise (· < ·) q.1.inner ∧ q.2.Nodup ∧ q.2 ≠ [] := by
    intro q hq
    have h5 := hw5 q hq
    simp only [Bool.and_eq_true, decide_eq_true_eq] at h5
    exact ⟨h5.1.1.1, h5.1.1.2, h5.1.2, h5.2⟩
  -- the authorizer state entering the fact loop
  set aStage : Authorizer :=
    ⟨sy₂, ⟨(a.authorizer_block_builder.build default_symbol_table).symbols,
      (a.authorizer_block_builder.build default_symbol_table).public_keys,
      (a.authorizer_block_builder.build default_symbol_table).payload⟩,
      a.policies, pk, none, TrustedOrigins.default, ⟨[]⟩⟩ with haStage
  set aIf : Authorizer :=
    (if bs₂.isEmpty then aStage
     else { aStage with
       token_origins := TrustedOrigins.from_scopes [Scope.previous]
         TrustedOrigins.default bs₂.length aStage.public_key_to_block_id
       blocks := some bs₂ }) with haIf
  have hIfWorld : aIf.world = aStage.world := by
    rw [haIf]
    split <;> rfl
  have hIfPol : aIf.policies = aStage.policies := by
    rw [haIf]
    split <;> rfl
  have hIfMap : aIf.public_key_to_block_id = aStage.public_key_to_block_id := by
    rw [haIf]
    split <;> rfl
  have hIfSym : aIf.symbols = aStage.symbols := by
    rw [haIf]
    split <;> rfl
  have hnodup₂ : (aIf.world.inner.map Prod.fst ++
      a.world.inner.map Prod.fst).Nodup := by
    rw [hIfWorld]
    show (([] : List (Origin × List Fact)).map Prod.fst ++
      a.world.inner.map Prod.fst).Nodup
    simpa using hw6
  obtain ⟨a₂, hflRun, hw₂, hcore⟩ :=
    factsLoop_replay ts₂ a.world.inner aIf hentries hnodup₂
  refine ⟨a₂, ?_, ?_, ?_, ?_⟩
  · unfold roundTrip
    rw [hs, hseq]
    dsimp only
    unfold from_snapshot
    split
    case isFalse hcond =>
      refine absurd ⟨?_, ?_⟩ hcond
      · show MIN_SCHEMA_VERSION ≤ MAX_SCHEMA_VERSION
        decide
      · show MAX_SCHEMA_VERSION ≤ MAX_SCHEMA_VERSION
        exact Nat.le_refl _
    unfold from_snapshot_body
    dsimp only
    rw [hkmval, hrunPK]
    dsimp only
    rw [hab]
    dsimp only [BlockBuilder.convert_from]
    rw [mapM_proto_policy]
    dsimp only
    rw [policies_roundtrip]
    dsimp only [Authorizer.new]
    rw [hblRun]
    dsimp only
    exact hflRun
  · have : a₂.world.inner = a.world.inner := by
      rw [hw₂, hIfWorld]
      show ([] : List (Origin × List Fact)) ++ a.world.inner = a.world.inner
      exact List.nil_append _
    calc a₂.world = ⟨a₂.world.inner⟩ := rfl
    _ = ⟨a.world.inner⟩ := by rw [this]
    _ = a.world := rfl
  · rw [hcore.1, hIfPol]
  · unfold Authorizer.keyAssoc
    rw [hcore.2.1, hIfMap, hcore.2.2.1, hIfSym]
    show pk.filterMap (fun p => (sy₂.public_keys.get_key p.1).map
      (fun k => (k, p.2))) = _
    rw [hmapPK]
    rfl


/-- Counterexample to C1 as literally stated: the sample authorizer's
external-key-index→block-ids map binds index 1 (its key table holds another
key at index 0), but the restored authorizer re-interns the external keys
from 0, so the restored map binds index 0 — the maps differ even though the
round trip succeeds. -/
theorem roundTrip_index_map_counterexample :
    (roundTrip cexAuthorizer).map (fun a₂ => a₂.public_key_to_block_id) =
      .ok [(0, [0])] ∧
    cexAuthorizer.public_key_to_block_id = [(1, [0])] ∧
    ([(0, [0])] : List (Nat × List Nat)) ≠ [(1, [0])] := by
  refine ⟨by decide, rfl, by decide⟩

/-- Witness for the amended C1 at the sample authorizer. -/
theorem roundTrip_preserves_semantics_witness :
    cexAuthorizer.wfB = true ∧
    ∃ a₂, roundTrip cexAuthorizer = .ok a₂ ∧
      a₂.world = cexAuthorizer.world ∧
      a₂.policies = cexAuthorizer.policies ∧
      a₂.keyAssoc = cexAuthorizer.keyAssoc :=
  ⟨by decide, roundTrip_preserves_semantics cexAuthorizer (by decide)⟩

end Biscuit
